import Mathlib

/-!
Verification of the terminal rendering and scroll-state engine of the
`bizchat` terminal chat client (`src/UserInterface.js`).

JavaScript strings are modelled as `List Char`; ANSI/SGR style sequences
(produced by `chalk`) are embedded concretely as the escape sequences the
library emits, and `stripAnsiCodes` (the regex `\u001b\[[0-9;]*m` replace)
is modelled by an explicit scanner.
-/

set_option maxHeartbeats 1000000

namespace BizChat

/-- JavaScript strings, modelled as lists of characters. -/
abbrev Str := List Char

/-- Shorthand to write string constants. -/
def S (s : String) : Str := s.data

/-- The ESC character `\u001b` that introduces an ANSI escape sequence. -/
def escChar : Char := '\x1b'

/-- An SGR escape sequence `ESC [ <digits/semicolons> m`. -/
def sgr (code : Str) : Str := escChar :: '[' :: code ++ ['m']

/-- `chalk.gray(s)`: wrap in SGR 90 / 39. -/
def grayStr (s : Str) : Str := sgr (S "90") ++ s ++ sgr (S "39")

/-- `chalk.red(s)`: wrap in SGR 31 / 39. -/
def redStr (s : Str) : Str := sgr (S "31") ++ s ++ sgr (S "39")

/-- `chalk.cyan(s)`: wrap in SGR 36 / 39. -/
def cyanStr (s : Str) : Str := sgr (S "36") ++ s ++ sgr (S "39")

/-- `chalk.green.bold(s)`: open green and bold, close both. -/
def greenBold (s : Str) : Str :=
  sgr (S "32") ++ sgr (S "1") ++ s ++ sgr (S "22") ++ sgr (S "39")

/-- `chalk.yellow.bold(s)`: open yellow and bold, close both. -/
def yellowBold (s : Str) : Str :=
  sgr (S "33") ++ sgr (S "1") ++ s ++ sgr (S "22") ++ sgr (S "39")

/-- Is a character allowed inside the body of an SGR sequence (`[0-9;]`)? -/
def isSgrBody (c : Char) : Bool := c.isDigit || c = ';'

/-- Scanner state for the regex `\\u001b\\[[0-9;]*m`: outside any
candidate match, right after an ESC, or inside the `[0-9;]*` body. -/
inductive StripState where
  | normal
  | afterEsc
  | inBody (body : Str)
deriving DecidableEq, Repr

/-- One left-to-right scanning step of the regex replace: on a failed
candidate the buffered characters are emitted verbatim (none of them --
`[`, digits, `;` -- can start a new match, and a terminating ESC
re-enters `afterEsc`). -/
def stripStep (st : StripState) (c : Char) : Str × StripState :=
  match st with
  | .normal => if c = escChar then ([], .afterEsc) else ([c], .normal)
  | .afterEsc =>
      if c = '[' then ([], .inBody [])
      else if c = escChar then ([escChar], .afterEsc)
      else ([escChar, c], .normal)
  | .inBody body =>
      if c = 'm' then ([], .normal)
      else if isSgrBody c then ([], .inBody (body ++ [c]))
      else if c = escChar then (escChar :: '[' :: body, .afterEsc)
      else (escChar :: '[' :: body ++ [c], .normal)

/-- Emit an unfinished candidate match at the end of the input. -/
def stripFlush : StripState → Str
  | .normal => []
  | .afterEsc => [escChar]
  | .inBody body => escChar :: '[' :: body

/-- Run the scanner over the input. -/
def stripGo : StripState → Str → Str
  | st, [] => stripFlush st
  | st, c :: rest => (stripStep st c).1 ++ stripGo (stripStep st c).2 rest

/-- `UserInterface#stripAnsiCodes`: remove every ANSI SGR sequence (the
JavaScript `replace(/\\u001b\\[[0-9;]*m/g, '')`), modelled as the
equivalent left-to-right scan. -/
def stripAnsi (s : Str) : Str := stripGo .normal s

/-- JavaScript `String#split(' ')`: cut at every single space, keeping
empty pieces. -/
def splitOnSpace : Str → List Str
  | [] => [[]]
  | c :: rest =>
    if c = ' ' then [] :: splitOnSpace rest
    else
      match splitOnSpace rest with
      | t :: ts => (c :: t) :: ts
      | [] => [[c]]

/-- JavaScript `String#endsWith(' ')`. -/
def endsWithSpace (s : Str) : Bool := s.getLast? = some ' '

/-- Is `c` JavaScript whitespace (the characters relevant here)? -/
def isJsWs (c : Char) : Bool :=
  c = ' ' || c = '\t' || c = '\n' || c = '\r' || c = '\x0b' || c = '\x0c'

/-- JavaScript `String#trim`: drop leading and trailing whitespace. -/
def jsTrim (s : Str) : Str :=
  ((s.dropWhile isJsWs).reverse.dropWhile isJsWs).reverse

/-! ## Message records -/

/-- The `type` field of a message record. -/
inductive MsgType where
  | chat | system | error | info | pending
deriving DecidableEq, Repr

/-- A message record as stored in `this.messages`.  Records of type
`system`/`error`/`info` carry no `name` in the source; their `name`
field is `[]` here and is never read.  `id` is the `Date.now()` tag of
pending records (`0` elsewhere). -/
structure MessageRec where
  type : MsgType
  name : Str
  text : Str
  timestamp : Str
  id : Nat
deriving DecidableEq, Repr

/-- The bracketed timestamp label `[${msg.timestamp}]`. -/
def bracketTs (m : MessageRec) : Str := '[' :: m.timestamp ++ [']']

/-- The kind-specific styled `content` of `formatMessageToLines`. -/
def renderContent (m : MessageRec) : Str :=
  match m.type with
  | .chat => greenBold m.name ++ S ": " ++ m.text
  | .system => grayStr m.text
  | .error => redStr m.text
  | .info => cyanStr m.text
  | .pending =>
      yellowBold m.name ++ S ": " ++ grayStr m.text ++ S " " ++
        grayStr (S "(sending...)")

/-- The `fullMessage` styled rendering: gray timestamp, space, content. -/
def styledRender (m : MessageRec) : Str :=
  grayStr (bracketTs m) ++ ' ' :: renderContent m

/-- The hanging indent of continuation lines:
`' '.repeat(timestamp.length + 2)`. -/
def wrapIndent (timestamp : Str) : Str := List.replicate (timestamp.length + 2) ' '

/-- The word loop of `formatMessageToLines`: fold the split words through
the current-line state `(cur, curPlain)`, pushing finished lines onto
`lines`.  Returns the accumulated lines and the final current line. -/
def wrapWords (timestamp : Str) (maxWidth : Int) :
    List Str → Str → Str → List Str → List Str × Str
  | [], cur, _, lines => (lines, cur)
  | w :: ws, cur, curPlain, lines =>
    let plainWord := stripAnsi w
    let testLine :=
      curPlain ++ (if endsWithSpace curPlain then [] else [' ']) ++ plainWord
    if (testLine.length : Int) ≤ maxWidth then
      if cur = grayStr timestamp ++ [' '] then
        wrapWords timestamp maxWidth ws (cur ++ w) (curPlain ++ plainWord) lines
      else
        wrapWords timestamp maxWidth ws (cur ++ ' ' :: w)
          (curPlain ++ ' ' :: plainWord) lines
    else
      let lines' := if jsTrim cur ≠ grayStr timestamp then lines ++ [cur] else lines
      let indent := wrapIndent timestamp
      wrapWords timestamp maxWidth ws (grayStr indent ++ w) (indent ++ plainWord)
        lines'

/-- `UserInterface#formatMessageToLines(msg, maxWidth)`. -/
def formatMessageToLines (m : MessageRec) (maxWidth : Int) : List Str :=
  let timestamp := bracketTs m
  let content := renderContent m
  let fullMessage := grayStr timestamp ++ ' ' :: content
  let plainText := stripAnsi fullMessage
  if (plainText.length : Int) ≤ maxWidth then [fullMessage]
  else
    let words := splitOnSpace content
    let r := wrapWords timestamp maxWidth words (grayStr timestamp ++ [' '])
      (timestamp ++ [' ']) []
    let lines :=
      if jsTrim r.2 ≠ grayStr timestamp then r.1 ++ [r.2] else r.1
    if lines = [] then [fullMessage] else lines

/-- Helper for `tokens`: accumulate the current word. -/
def tokensGo (cur : Str) : Str → List Str
  | [] => if cur = [] then [] else [cur]
  | c :: r =>
    if c = ' ' then
      if cur = [] then tokensGo [] r else cur :: tokensGo [] r
    else tokensGo (cur ++ [c]) r

/-- Specification-side measurement: the maximal space-free, nonempty
tokens of an (unstyled) string — its words after normalizing spaces. -/
def tokens (s : Str) : List Str := tokensGo [] s

/-! ## UI state, scrolling, and the message log -/

/-- `this.viewMode`: `'normal'` or `'scrolling'`. -/
inductive ViewMode where
  | normal | scrolling
deriving DecidableEq, Repr

/-- The capacity bound `this.maxMessages`. -/
def maxMessages : Nat := 500

/-- The state of a `UserInterface` instance relevant to the message log,
roster and scroll engine.  `termHeight`/`updateStatus` stand for the
ambient `term.height` and `this.updateStatus` read by
`getVisibleMessageCount`; display-only fields (`status`, `currentInput`,
input/suggestion state) are omitted. -/
structure UIState where
  messages : List MessageRec
  users : List Str
  scrollPosition : Nat
  viewMode : ViewMode
  termHeight : Int
  updateStatus : Bool
deriving DecidableEq, Repr

/-- `UserInterface#getVisibleMessageCount`.  The JavaScript float factors
1.2 and 1.5 are modelled as the exact rationals 6/5 and 3/2, so
`Math.floor(h / 1.2)` becomes `5 * h / 6` and `Math.floor(h / 1.5)`
becomes `2 * h / 3` in integer (floor) division. -/
def getVisibleMessageCount (s : UIState) : Nat :=
  let headerHeight : Int := if s.updateStatus then 4 else 3
  let inputHeight : Int := 3
  let contentHeight := s.termHeight - headerHeight - inputHeight
  let messageDisplayHeight := contentHeight - 2
  if messageDisplayHeight < 1 then 1
  else
    let estimate : Int :=
      if messageDisplayHeight < 10 then messageDisplayHeight * 5 / 6
      else messageDisplayHeight * 2 / 3
    max 1 estimate.toNat

/-- `Math.max(0, this.messages.length - this.getVisibleMessageCount())`,
the scroll bound computed inside the scroll methods (truncated natural
subtraction is exactly the `Math.max(0, ·)` clamp). -/
def maxScrollOf (s : UIState) : Nat :=
  s.messages.length - getVisibleMessageCount s

/-- `UserInterface#scrollUp`. -/
def scrollUp (s : UIState) : UIState :=
  if s.scrollPosition < maxScrollOf s then
    { s with scrollPosition := s.scrollPosition + 1, viewMode := .scrolling }
  else s

/-- `UserInterface#scrollDown`. -/
def scrollDown (s : UIState) : UIState :=
  if 0 < s.scrollPosition then
    let p := s.scrollPosition - 1
    { s with scrollPosition := p,
             viewMode := if p = 0 then .normal else s.viewMode }
  else s

/-- `UserInterface#scrollPageUp`. -/
def scrollPageUp (s : UIState) : UIState :=
  let pageSize := max 1 (getVisibleMessageCount s - 1)
  { s with scrollPosition := min (maxScrollOf s) (s.scrollPosition + pageSize),
           viewMode := .scrolling }

/-- `UserInterface#scrollPageDown`.  `Math.max(0, pos - pageSize)` is
truncated natural subtraction. -/
def scrollPageDown (s : UIState) : UIState :=
  let pageSize := max 1 (getVisibleMessageCount s - 1)
  let p := s.scrollPosition - pageSize
  { s with scrollPosition := p,
           viewMode := if p = 0 then .normal else s.viewMode }

/-- `UserInterface#scrollToTop`. -/
def scrollToTop (s : UIState) : UIState :=
  { s with scrollPosition := maxScrollOf s, viewMode := .scrolling }

/-- `UserInterface#scrollToBottom`. -/
def scrollToBottom (s : UIState) : UIState :=
  { s with scrollPosition := 0, viewMode := .normal }

/-- One keyboard-driven scroll command. -/
inductive ScrollOp where
  | up | down | pageUp | pageDown | toTop | toBottom
deriving DecidableEq, Repr

/-- Dispatch a scroll command (the `term.on('key')` switch). -/
def applyScrollOp : ScrollOp → UIState → UIState
  | .up, s => scrollUp s
  | .down, s => scrollDown s
  | .pageUp, s => scrollPageUp s
  | .pageDown, s => scrollPageDown s
  | .toTop, s => scrollToTop s
  | .toBottom, s => scrollToBottom s

/-- Run a finite sequence of scroll commands in order. -/
def applyScrollOps (ops : List ScrollOp) (s : UIState) : UIState :=
  ops.foldl (fun t o => applyScrollOp o t) s

/-- `UserInterface#trimMessages`.  `slice(-maxMessages)` keeps the most
recent `maxMessages` records; `Math.max(0, pos - removed)` is truncated
natural subtraction. -/
def trimMessages (s : UIState) : UIState :=
  if maxMessages < s.messages.length then
    let removed := s.messages.length - maxMessages
    let msgs := s.messages.drop (s.messages.length - maxMessages)
    if 0 < s.scrollPosition then
      let p := s.scrollPosition - removed
      { s with messages := msgs, scrollPosition := p,
               viewMode := if p = 0 then .normal else s.viewMode }
    else { s with messages := msgs }
  else s

/-- The common append path of `addSystemMessage` / `addErrorMessage` /
`addInfoMessage`: push the record, then `trimMessages`. -/
def appendMessage (r : MessageRec) (s : UIState) : UIState :=
  trimMessages { s with messages := s.messages ++ [r] }

/-- `UserInterface#addSystemMessage`.  `now` is the ambient
`new Date().toLocaleTimeString()` label. -/
def addSystemMessage (text now : Str) (s : UIState) : UIState :=
  appendMessage ⟨.system, [], text, now, 0⟩ s

/-- `UserInterface#addErrorMessage`. -/
def addErrorMessage (text now : Str) (s : UIState) : UIState :=
  appendMessage ⟨.error, [], text, now, 0⟩ s

/-- `UserInterface#addInfoMessage`. -/
def addInfoMessage (text now : Str) (s : UIState) : UIState :=
  appendMessage ⟨.info, [], text, now, 0⟩ s

/-- `UserInterface#addPendingMessage`.  `now` is the formatted send-time
label and `nowId` the `Date.now()` tag. -/
def addPendingMessage (text now : Str) (nowId : Nat) (s : UIState) : UIState :=
  scrollToBottom (trimMessages
    { s with messages := s.messages ++ [⟨.pending, S "You", text, now, nowId⟩] })

/-- The backward search of `addChatMessage`: index of the newest record
with `type === 'pending'` and `text === text`, if any (the `for` loop
from `messages.length - 1` down to `0` with `break` on first match). -/
def lastPendingIdx (msgs : List MessageRec) (text : Str) : Option Nat :=
  match msgs with
  | [] => none
  | m :: rest =>
    match lastPendingIdx rest text with
    | some i => some (i + 1)
    | none => if m.type = .pending ∧ m.text = text then some 0 else none

/-- `UserInterface#addChatMessage(name, text, timestamp)`.  `time` is the
formatted label `new Date(timestamp).toLocaleTimeString()` (or the
current-time label when `timestamp` is absent), modelled as an input. -/
def addChatMessage (name text time : Str) (s : UIState) : UIState :=
  let rec' : MessageRec := ⟨.chat, name, text, time, 0⟩
  match lastPendingIdx s.messages text with
  | some i => trimMessages { s with messages := s.messages.set i rec' }
  | none => trimMessages { s with messages := s.messages ++ [rec'] }

/-- `UserInterface#addUser` (a `Set`: add only if absent). -/
def addUser (username : Str) (s : UIState) : UIState :=
  if username ∈ s.users then s else { s with users := s.users ++ [username] }

/-- The last index of `'@'` in a string (`String#lastIndexOf('@')`,
`none` for `-1`). -/
def lastIndexOfAt (s : Str) : Option Nat :=
  match s with
  | [] => none
  | c :: rest =>
    match lastIndexOfAt rest with
    | some i => some (i + 1)
    | none => if c = '@' then some 0 else none

/-- Character-wise `String#toLowerCase`. -/
def toLowerStr (s : Str) : Str := s.map Char.toLower

/-- `UserInterface#handleAutoComplete(input)` over the roster `users`. -/
def handleAutoComplete (users : List Str) (input : Str) : List Str :=
  if input = [] then []
  else
    match lastIndexOfAt input with
    | none => []
    | some i =>
      let searchTerm := toLowerStr (input.drop (i + 1))
      (users.filter (fun u => searchTerm.isPrefixOf (toLowerStr u))).map
        (fun u => input.take (i + 1) ++ u)

/-! ## Concrete example states -/

/-- A sample record used in concrete witness states. -/
def sampleRec : MessageRec := ⟨.chat, S "a", S "bb cc", S "00:00:00", 0⟩

/-- A sample valid scroll state: 12 messages on a 24-row terminal
(visible capacity 10, so `maxScroll = 2`), scrolled up by 1. -/
def sampleState : UIState :=
  ⟨List.replicate 12 sampleRec, [], 1, .scrolling, 24, false⟩

/-- A state with an empty log at the bottom (`maxScroll = 0`). -/
def emptyState : UIState := ⟨[], [], 0, .normal, 24, false⟩

/-- A state whose log holds 600 records and is scrolled up by 50. -/
def bigState : UIState :=
  ⟨List.replicate 600 sampleRec, [], 50, .scrolling, 24, false⟩

/-- A state whose log is exactly at the 500-record capacity, with no
pending records. -/
def fullState : UIState :=
  ⟨List.replicate 500 ⟨.system, [], S "x", S "t", 0⟩, [], 0, .normal, 24, false⟩

/-- A state holding one locally pending record from sender `You` with
text `hi`. -/
def pendingState : UIState :=
  ⟨[⟨.pending, S "You", S "hi", S "t0", 5⟩], [], 0, .normal, 24, false⟩

/-! ## Proof-side notions for the line wrapper -/

/-- A string free of JavaScript whitespace. -/
abbrev wsFree (s : Str) : Prop := ∀ c ∈ s, isJsWs c = false

/-- A string containing no ESC character. -/
abbrev escFree (s : Str) : Prop := escChar ∉ s

/-- A string after which the ANSI stripper re-synchronizes: stripping
distributes over any continuation. -/
def Closed (s : Str) : Prop :=
  ∀ t, stripAnsi (s ++ t) = stripAnsi s ++ stripAnsi t

/-- Every member is a nonempty whitespace-free word. -/
def WordsOK (ps : List Str) : Prop := ∀ p ∈ ps, p ≠ [] ∧ wsFree p

/-- Join words with single spaces. -/
def joinSp : List Str → Str
  | [] => []
  | [t] => t
  | t :: ts => t ++ ' ' :: joinSp ts

/-- Does a line consist of a single word longer than `maxWidth` (the
exception clause of the wrap-width claim)? -/
def singleLongWord (maxWidth : Int) (l : Str) : Bool :=
  match tokens (stripAnsi l) with
  | [w] => maxWidth < (w.length : Int)
  | _ => false

/-- The unstyled shape of one produced wrap line: a nonempty sequence of
words after either the timestamp-plus-space prefix (only allowed for the
first line, always within the width) or the hanging indent (within the
width unless it holds a single word). -/
def LineShape (tsb : Str) (W : Int) (pl : Str) (ps : List Str)
    (first : Bool) : Prop :=
  WordsOK ps ∧ ps ≠ [] ∧
    ((first = true ∧ pl = (tsb ++ [' ']) ++ joinSp ps ∧
        ((pl.length : Int) ≤ W)) ∨
     (pl = wrapIndent tsb ++ joinSp ps ∧
        (((pl.length : Int) ≤ W) ∨ ps.length = 1)))

/-- The pushed lines paired with their (ghost) word groups; only the
first line may carry the timestamp prefix. -/
def LinesShape (tsb : Str) (W : Int) :
    List Str → List (List Str) → Bool → Prop
  | [], [], _ => True
  | l :: ls, ps :: pss, first =>
      LineShape tsb W (stripAnsi l) ps first ∧ LinesShape tsb W ls pss false
  | _, _, _ => False

/-- The invariant of the `formatMessageToLines` word loop: the tracked
plain line is the stripped styled line; the styled line re-synchronizes
the stripper; the pushed lines are well-shaped; and the current line is
either the untouched initial timestamp line or an active line of one of
the two shapes (a timestamp-prefixed current line means nothing was
pushed yet). -/
def StateInv (tsb : Str) (W : Int) (cur curPlain : Str) (lines : List Str)
    (pss : List (List Str)) (curPs : List Str) : Prop :=
  stripAnsi cur = curPlain ∧ Closed cur ∧ cur.head? = some escChar ∧
  LinesShape tsb W lines pss true ∧
  ((cur = grayStr tsb ++ [' '] ∧ curPlain = tsb ++ [' '] ∧ curPs = [] ∧
      lines = [] ∧ pss = [])
   ∨ (curPs ≠ [] ∧ WordsOK curPs ∧
      ((curPlain = (tsb ++ [' ']) ++ joinSp curPs ∧
          ((curPlain.length : Int) ≤ W) ∧ lines = [] ∧ pss = [])
       ∨ (curPlain = wrapIndent tsb ++ joinSp curPs ∧
          (((curPlain.length : Int) ≤ W) ∨ curPs.length = 1)))))

/-! ## Scroll-state lemmas -/

/-- The scroll-bound invariant `0 ≤ scrollPosition ≤ maxScroll` (the lower
bound is inherent in `Nat`). -/
abbrev scrollInv (s : UIState) : Prop := s.scrollPosition ≤ maxScrollOf s

/-- The mode/position biconditional: `normal` exactly at the bottom. -/
abbrev modeInv (s : UIState) : Prop := s.viewMode = .normal ↔ s.scrollPosition = 0

@[simp] theorem maxScrollOf_update (s : UIState) (p : Nat) (v : ViewMode) :
    maxScrollOf { s with scrollPosition := p, viewMode := v } = maxScrollOf s := rfl

@[simp] theorem maxScrollOf_update_pos (s : UIState) (p : Nat) :
    maxScrollOf { s with scrollPosition := p } = maxScrollOf s := rfl

theorem scrollUp_inv {s : UIState} (h : scrollInv s) : scrollInv (scrollUp s) := by
  unfold scrollUp
  split
  · simpa [scrollInv] using by omega
  · exact h

theorem scrollDown_inv {s : UIState} (h : scrollInv s) : scrollInv (scrollDown s) := by
  unfold scrollDown
  split
  · simp only [scrollInv, maxScrollOf_update] at *
    omega
  · exact h

theorem scrollPageUp_inv (s : UIState) : scrollInv (scrollPageUp s) := by
  unfold scrollPageUp
  simp only [scrollInv, maxScrollOf_update]
  omega

theorem scrollPageDown_inv {s : UIState} (h : scrollInv s) :
    scrollInv (scrollPageDown s) := by
  unfold scrollPageDown
  simp only [scrollInv, maxScrollOf_update] at *
  omega

theorem scrollToTop_inv (s : UIState) : scrollInv (scrollToTop s) := by
  unfold scrollToTop
  simp [scrollInv]

theorem scrollToBottom_inv (s : UIState) : scrollInv (scrollToBottom s) := by
  unfold scrollToBottom
  simp [scrollInv]

theorem applyScrollOp_inv (op : ScrollOp) (s : UIState) (h : scrollInv s) :
    scrollInv (applyScrollOp op s) := by
  cases op with
  | up => exact scrollUp_inv h
  | down => exact scrollDown_inv h
  | pageUp => exact scrollPageUp_inv s
  | pageDown => exact scrollPageDown_inv h
  | toTop => exact scrollToTop_inv s
  | toBottom => exact scrollToBottom_inv s

theorem applyScrollOps_inv (ops : List ScrollOp) (s : UIState) (h : scrollInv s) :
    scrollInv (applyScrollOps ops s) := by
  induction ops generalizing s with
  | nil => exact h
  | cons op rest ih => exact ih _ (applyScrollOp_inv op s h)

theorem scrollUp_mode {s : UIState} (h : modeInv s) : modeInv (scrollUp s) := by
  unfold scrollUp
  split
  · simp [modeInv]
  · exact h

theorem scrollDown_mode {s : UIState} (h : modeInv s) : modeInv (scrollDown s) := by
  unfold scrollDown
  split
  · rename_i hp
    by_cases h0 : s.scrollPosition - 1 = 0
    · simp [modeInv, h0]
    · have : s.viewMode = .scrolling := by
        cases hv : s.viewMode with
        | normal => exact absurd (h.mp hv) (by omega)
        | scrolling => rfl
      simp [modeInv, h0, this]
  · exact h

theorem scrollPageDown_mode {s : UIState} (h : modeInv s) :
    modeInv (scrollPageDown s) := by
  unfold scrollPageDown
  by_cases h0 : s.scrollPosition - max 1 (getVisibleMessageCount s - 1) = 0
  · simp [modeInv, h0]
  · have hpos : 0 < s.scrollPosition := by omega
    have : s.viewMode = .scrolling := by
      cases hv : s.viewMode with
      | normal => exact absurd (h.mp hv) (by omega)
      | scrolling => rfl
    simp [modeInv, h0, this]

theorem scrollToBottom_mode (s : UIState) : modeInv (scrollToBottom s) := by
  simp [scrollToBottom, modeInv]

theorem scrollToTop_spec (s : UIState) :
    (scrollToTop s).viewMode = .scrolling ∧
      (scrollToTop s).scrollPosition = maxScrollOf s := by
  simp [scrollToTop]

theorem scrollPageUp_scrolling (s : UIState) :
    (scrollPageUp s).viewMode = .scrolling := by
  simp [scrollPageUp]

theorem scrollToTop_mode_of_pos {s : UIState} (h : 0 < maxScrollOf s) :
    modeInv (scrollToTop s) := by
  unfold scrollToTop
  simp [modeInv]
  omega

theorem scrollPageUp_mode_of_pos {s : UIState} (h : 0 < maxScrollOf s) :
    modeInv (scrollPageUp s) := by
  unfold scrollPageUp
  simp [modeInv]
  omega

/-! ## Message-log lemmas -/

theorem trim_noop (s : UIState) (h : s.messages.length ≤ maxMessages) :
    trimMessages s = s := by
  unfold trimMessages
  rw [if_neg (by omega)]

theorem trimMessages_messages (s : UIState) :
    (trimMessages s).messages =
      s.messages.drop (s.messages.length - maxMessages) := by
  unfold trimMessages
  split
  · split <;> simp
  · rw [Nat.sub_eq_zero_of_le (by omega), List.drop_zero]

theorem trimMessages_scrollPos (s : UIState) :
    (trimMessages s).scrollPosition =
      s.scrollPosition - (s.messages.length - maxMessages) := by
  unfold trimMessages
  split
  · split
    · simp
    · simp only []
      omega
  · omega

theorem trimMessages_mode (s : UIState) (hp : 0 < s.scrollPosition)
    (h0 : (trimMessages s).scrollPosition = 0) :
    (trimMessages s).viewMode = .normal := by
  by_cases hlen : maxMessages < s.messages.length
  · unfold trimMessages at h0 ⊢
    rw [if_pos hlen, if_pos hp] at h0 ⊢
    simp only [] at h0 ⊢
    rw [if_pos h0]
  · unfold trimMessages at h0
    rw [if_neg hlen] at h0
    omega

/-! ## Claims about the scroll engine -/

/-- Claim C1: starting from any scroll state satisfying the bound
invariant, every `scrollUp` / `scrollDown` / `scrollPageUp` /
`scrollPageDown` / `scrollToTop` / `scrollToBottom` call — and hence
every finite sequence of such calls — preserves
`0 ≤ scrollPosition ≤ maxScroll`, and `scrollToBottom` always yields
`scrollPosition = 0` with `viewMode = normal`. -/
theorem scroll_bounds_invariant :
    (∀ (op : ScrollOp) (s : UIState), scrollInv s →
        scrollInv (applyScrollOp op s))
    ∧ (∀ (ops : List ScrollOp) (s : UIState), scrollInv s →
        scrollInv (applyScrollOps ops s))
    ∧ (∀ s : UIState, (scrollToBottom s).scrollPosition = 0 ∧
        (scrollToBottom s).viewMode = .normal) :=
  ⟨fun op s h => applyScrollOp_inv op s h,
   fun ops s h => applyScrollOps_inv ops s h,
   fun s => ⟨rfl, rfl⟩⟩

/-- Claim C1, witness: the invariant holds for a concrete state and is
preserved by a concrete call. -/
theorem scroll_bounds_invariant_witness :
    scrollInv sampleState ∧
      scrollInv (applyScrollOps [.toTop, .down, .up, .toBottom] sampleState) :=
  ⟨by decide, scroll_bounds_invariant.2.1 [.toTop, .down, .up, .toBottom]
    sampleState (by decide)⟩

/-- Claim C2, counterexample: on an empty log (`maxScroll = 0`),
`scrollToTop` sets `viewMode = scrolling` while `scrollPosition = 0`,
so the claimed biconditional fails and the state does not stay
`normal` as claimed. -/
theorem scrollToTop_zero_counterexample :
    (scrollToTop emptyState).scrollPosition = 0 ∧
      (scrollToTop emptyState).viewMode = .scrolling ∧
      ¬ modeInv (scrollToTop emptyState) := by
  refine ⟨by decide, by decide, ?_⟩
  intro h
  have h0 : (scrollToTop emptyState).viewMode = .normal → False := by
    intro hv
    have : (ViewMode.scrolling : ViewMode) = .normal := by
      rw [show (scrollToTop emptyState).viewMode = .scrolling from by decide] at hv
      exact hv
    cases this
  exact h0 (h.mpr (by decide))

/-- Claim C2, amended: `scrollUp`, `scrollDown`, `scrollPageDown` and
`scrollToBottom` preserve the biconditional `viewMode = normal ↔
scrollPosition = 0`; `scrollToTop` and `scrollPageUp` set
`viewMode = scrolling` unconditionally (with `scrollToTop` jumping to
`maxScroll`), so when `maxScroll = 0` they leave `scrollPosition = 0`
with `viewMode = scrolling` (not `normal`); when `maxScroll > 0` the
biconditional holds after them as well. -/
theorem scroll_mode_biconditional :
    (∀ s : UIState, modeInv s →
        modeInv (scrollUp s) ∧ modeInv (scrollDown s) ∧
          modeInv (scrollPageDown s))
    ∧ (∀ s : UIState, modeInv (scrollToBottom s))
    ∧ (∀ s : UIState, (scrollToTop s).viewMode = .scrolling ∧
        (scrollToTop s).scrollPosition = maxScrollOf s ∧
        (scrollPageUp s).viewMode = .scrolling)
    ∧ (∀ s : UIState, 0 < maxScrollOf s →
        modeInv (scrollToTop s) ∧ modeInv (scrollPageUp s)) :=
  ⟨fun _ h => ⟨scrollUp_mode h, scrollDown_mode h, scrollPageDown_mode h⟩,
   scrollToBottom_mode,
   fun s => ⟨(scrollToTop_spec s).1, (scrollToTop_spec s).2,
     scrollPageUp_scrolling s⟩,
   fun _ h => ⟨scrollToTop_mode_of_pos h, scrollPageUp_mode_of_pos h⟩⟩

/-- Claim C2 (amended), witness: concrete instances of the preservation
and of the `maxScroll > 0` case. -/
theorem scroll_mode_biconditional_witness :
    modeInv sampleState ∧ modeInv (scrollUp sampleState) ∧
      0 < maxScrollOf sampleState ∧ modeInv (scrollToTop sampleState) :=
  ⟨by decide,
   (scroll_mode_biconditional.1 sampleState (by decide)).1,
   by decide,
   (scroll_mode_biconditional.2.2.2 sampleState (by decide)).1⟩

/-- Claim C10: every scroll operation leaves the message log and the
roster unchanged; only `scrollPosition` and `viewMode` may change. -/
theorem scroll_frame_effect :
    ∀ (op : ScrollOp) (s : UIState),
      (applyScrollOp op s).messages = s.messages ∧
        (applyScrollOp op s).users = s.users ∧
        (applyScrollOp op s).termHeight = s.termHeight ∧
        (applyScrollOp op s).updateStatus = s.updateStatus := by
  intro op s
  cases op <;>
    simp only [applyScrollOp, scrollUp, scrollDown, scrollPageUp, scrollPageDown,
      scrollToTop, scrollToBottom] <;>
    first
      | (split <;> exact ⟨rfl, rfl, rfl, rfl⟩)
      | simp

/-! ## Pending-message correlation lemmas -/

theorem set_append_cons {α : Type} (pre : List α) (x y : α) (suf : List α) :
    (pre ++ x :: suf).set pre.length y = pre ++ y :: suf := by
  induction pre with
  | nil => rfl
  | cons a pre ih => simp [List.set, ih]

theorem lastPendingIdx_none_iff (msgs : List MessageRec) (t : Str) :
    lastPendingIdx msgs t = none ↔
      ∀ m ∈ msgs, ¬(m.type = .pending ∧ m.text = t) := by
  induction msgs with
  | nil => simp [lastPendingIdx]
  | cons m rest ih =>
    rw [lastPendingIdx]
    cases hrec : lastPendingIdx rest t with
    | some i =>
      constructor
      · intro h
        cases h
      · intro hall
        have hnone : lastPendingIdx rest t = none :=
          ih.mpr fun m' hm' => hall m' (List.mem_cons_of_mem _ hm')
        rw [hnone] at hrec
        cases hrec
    | none =>
      by_cases hm : m.type = .pending ∧ m.text = t
      · rw [if_pos hm]
        constructor
        · intro h
          cases h
        · intro hall
          exact absurd hm (hall m (List.mem_cons_self _ _))
      · rw [if_neg hm]
        constructor
        · intro _ m' hm'
          rcases List.mem_cons.mp hm' with rfl | h'
          · exact hm
          · exact ih.mp hrec m' h'
        · intro _
          rfl

theorem lastPendingIdx_some_spec {msgs : List MessageRec} {t : Str} {i : Nat}
    (h : lastPendingIdx msgs t = some i) :
    ∃ pre x suf, msgs = pre ++ x :: suf ∧ pre.length = i ∧
      x.type = .pending ∧ x.text = t ∧
      ∀ y ∈ suf, ¬(y.type = .pending ∧ y.text = t) := by
  induction msgs generalizing i with
  | nil => cases h
  | cons m rest ih =>
    rw [lastPendingIdx] at h
    cases hrec : lastPendingIdx rest t with
    | some j =>
      rw [hrec] at h
      injection h with h
      obtain ⟨pre, x, suf, hdec, hlen, hty, htx, hsuf⟩ := ih hrec
      exact ⟨m :: pre, x, suf, by rw [hdec]; rfl, by simp [hlen, h], hty, htx, hsuf⟩
    | none =>
      rw [hrec] at h
      by_cases hm : m.type = .pending ∧ m.text = t
      · rw [if_pos hm] at h
        injection h with h
        exact ⟨[], m, rest, rfl, h, hm.1, hm.2,
          fun y hy => (lastPendingIdx_none_iff rest t).mp hrec y hy⟩
      · rw [if_neg hm] at h
        cases h

theorem lastPendingIdx_name_irrelevant (msgs : List MessageRec) (t : Str)
    (f : Str → Str) :
    lastPendingIdx (msgs.map fun m => { m with name := f m.name }) t =
      lastPendingIdx msgs t := by
  induction msgs with
  | nil => rfl
  | cons m rest ih => simp [lastPendingIdx, ih]

theorem addChatMessage_replace (s : UIState) (name t time : Str) (i : Nat)
    (hlen : s.messages.length ≤ maxMessages)
    (h : lastPendingIdx s.messages t = some i) :
    (addChatMessage name t time s).messages =
      s.messages.set i ⟨.chat, name, t, time, 0⟩ := by
  have htrim := trim_noop
    { s with messages := s.messages.set i ⟨.chat, name, t, time, 0⟩ }
    (by simpa using hlen)
  simp only [addChatMessage, h, htrim]

theorem addChatMessage_append (s : UIState) (name t time : Str)
    (hlen : s.messages.length < maxMessages)
    (h : lastPendingIdx s.messages t = none) :
    (addChatMessage name t time s).messages =
      s.messages ++ [⟨.chat, name, t, time, 0⟩] := by
  have htrim := trim_noop
    { s with messages := s.messages ++ [⟨.chat, name, t, time, 0⟩] }
    (by simp only [List.length_append, List.length_cons, List.length_nil]; omega)
  simp only [addChatMessage, h, htrim]

/-! ## Claims about the message log -/

/-- Claim C5: appending never leaves more than 500 records: the result
is the most recent `min (n+1) 500` records in order (excess dropped from
the front), `scrollPosition` is decremented by the number `k` of dropped
records (floored at 0), and when a positive `scrollPosition` reaches 0
the view mode is forced to `normal`. -/
theorem append_capacity :
    ∀ (s : UIState) (r : MessageRec),
      (appendMessage r s).messages =
        (s.messages ++ [r]).drop (s.messages.length + 1 - maxMessages) ∧
      (appendMessage r s).messages.length =
        min (s.messages.length + 1) maxMessages ∧
      (appendMessage r s).messages.length ≤ maxMessages ∧
      (appendMessage r s).scrollPosition =
        s.scrollPosition - (s.messages.length + 1 - maxMessages) ∧
      (0 < s.scrollPosition → (appendMessage r s).scrollPosition = 0 →
        (appendMessage r s).viewMode = .normal) := by
  intro s r
  unfold appendMessage
  refine ⟨?_, ?_, ?_, ?_, ?_⟩
  · rw [trimMessages_messages]
    simp [List.length_append]
  · rw [trimMessages_messages, List.length_drop]
    simp only [List.length_append, List.length_cons, List.length_nil]
    omega
  · rw [trimMessages_messages, List.length_drop]
    simp only [List.length_append, List.length_cons, List.length_nil]
    omega
  · rw [trimMessages_scrollPos]
    simp [List.length_append]
  · exact fun hp h0 => trimMessages_mode _ hp h0

/-- Claim C5, witness: appending to a 600-record log scrolled up by 50
trims to 500 records and clamps the scroll position to 0, forcing
`normal` mode. -/
theorem append_capacity_witness :
    (appendMessage sampleRec bigState).messages.length = 500 ∧
      (appendMessage sampleRec bigState).scrollPosition = 0 ∧
      0 < bigState.scrollPosition ∧
      (appendMessage sampleRec bigState).viewMode = .normal := by
  have h := append_capacity bigState sampleRec
  have h600 : bigState.messages.length = 600 := by
    rw [show bigState.messages = List.replicate 600 sampleRec from rfl,
      List.length_replicate]
  have hlen : (appendMessage sampleRec bigState).messages.length = 500 := by
    rw [h.2.1, h600]
    rfl
  have hpos : (appendMessage sampleRec bigState).scrollPosition = 0 := by
    rw [h.2.2.2.1, h600]
    rfl
  exact ⟨hlen, hpos, by decide, h.2.2.2.2 (by decide) hpos⟩

/-- Claim C3, counterexample: a pending record from sender `You` with
text `hi` is replaced in place by a confirmation whose sender `mallory`
differs — the matching ignores the sender, contradicting the claimed
text+sender correlation. -/
theorem correlation_cross_sender_counterexample :
    pendingState.messages = [⟨.pending, S "You", S "hi", S "t0", 5⟩] ∧
      S "mallory" ≠ S "You" ∧
      (addChatMessage (S "mallory") (S "hi") (S "t1") pendingState).messages =
        [⟨.chat, S "mallory", S "hi", S "t1", 0⟩] := by
  refine ⟨rfl, by decide, by decide⟩

/-- Claim C3, amended: an incoming chat confirmation is matched to a
locally pending record by text alone — the pending record's sender is
ignored, so any confirmation with matching text (from any sender)
replaces the most recent matching pending record in place. -/
theorem correlation_by_text_only :
    (∀ (msgs : List MessageRec) (t : Str) (f : Str → Str),
        lastPendingIdx (msgs.map fun m => { m with name := f m.name }) t =
          lastPendingIdx msgs t)
    ∧ (∀ (s : UIState) (name t time : Str) (i : Nat),
        s.messages.length ≤ maxMessages →
        lastPendingIdx s.messages t = some i →
        (addChatMessage name t time s).messages =
          s.messages.set i ⟨.chat, name, t, time, 0⟩) :=
  ⟨lastPendingIdx_name_irrelevant,
   fun s name t time i hlen h => addChatMessage_replace s name t time i hlen h⟩

/-- Claim C3 (amended), witness: a confirmation from a different sender
replaces the pending record in place. -/
theorem correlation_by_text_only_witness :
    pendingState.messages.length ≤ maxMessages ∧
      lastPendingIdx pendingState.messages (S "hi") = some 0 ∧
      (addChatMessage (S "alice") (S "hi") (S "t1") pendingState).messages =
        pendingState.messages.set 0 ⟨.chat, S "alice", S "hi", S "t1", 0⟩ :=
  ⟨by decide, by decide,
   correlation_by_text_only.2 pendingState (S "alice") (S "hi") (S "t1") 0
     (by decide) (by decide)⟩

/-- Claim C4, counterexample: on a log already holding 500 records with
no matching pending record, a confirmation appends the new chat record
but the capacity trim immediately drops the oldest record, so the log
length stays 500 instead of increasing by 1 (and the dropped front
record is not untouched). -/
theorem confirm_at_capacity_counterexample :
    lastPendingIdx fullState.messages (S "hi") = none ∧
      fullState.messages.length = 500 ∧
      (addChatMessage (S "alice") (S "hi") (S "t") fullState).messages.length
        = 500 := by
  have hnone : lastPendingIdx fullState.messages (S "hi") = none :=
    (lastPendingIdx_none_iff _ _).mpr
      (fun m hm => by rw [List.eq_of_mem_replicate hm]; simp)
  have hflen : fullState.messages.length = 500 := by
    rw [show fullState.messages =
        List.replicate 500 (⟨.system, [], S "x", S "t", 0⟩ : MessageRec) from rfl,
      List.length_replicate]
  refine ⟨hnone, hflen, ?_⟩
  have htrim := trimMessages_messages
    { fullState with
        messages := fullState.messages ++ [⟨.chat, S "alice", S "hi", S "t", 0⟩] }
  simp only [addChatMessage, hnone, htrim]
  simp only [List.length_drop, List.length_append, List.length_cons,
    List.length_nil, hflen, maxMessages]

/-- Claim C4, amended: on a log holding fewer than 500 records,
confirming with `(name, text, timestamp)` searches from the newest
record backward for the most recent pending record with matching text;
if found it is replaced in place by the confirmed chat record, the
length is unchanged and all other records are untouched; if none is
found the chat record is appended and the length grows by exactly 1. -/
theorem confirm_spec :
    ∀ (s : UIState) (name t time : Str),
      s.messages.length < maxMessages →
      ((∀ i, lastPendingIdx s.messages t = some i →
          (addChatMessage name t time s).messages =
            s.messages.set i ⟨.chat, name, t, time, 0⟩ ∧
          (addChatMessage name t time s).messages.length =
            s.messages.length ∧
          ∃ pre x suf, s.messages = pre ++ x :: suf ∧ pre.length = i ∧
            x.type = .pending ∧ x.text = t ∧
            (∀ y ∈ suf, ¬(y.type = .pending ∧ y.text = t)) ∧
            (addChatMessage name t time s).messages =
              pre ++ ⟨.chat, name, t, time, 0⟩ :: suf)
       ∧ (lastPendingIdx s.messages t = none →
          (∀ m ∈ s.messages, ¬(m.type = .pending ∧ m.text = t)) ∧
          (addChatMessage name t time s).messages =
            s.messages ++ [⟨.chat, name, t, time, 0⟩] ∧
          (addChatMessage name t time s).messages.length =
            s.messages.length + 1)) := by
  intro s name t time hlen
  constructor
  · intro i hi
    have hset := addChatMessage_replace s name t time i (Nat.le_of_lt hlen) hi
    refine ⟨hset, by rw [hset, List.length_set], ?_⟩
    obtain ⟨pre, x, suf, hdec, hleni, hty, htx, hsuf⟩ :=
      lastPendingIdx_some_spec hi
    refine ⟨pre, x, suf, hdec, hleni, hty, htx, hsuf, ?_⟩
    rw [hset, hdec, ← hleni, set_append_cons]
  · intro hn
    have happ := addChatMessage_append s name t time hlen hn
    exact ⟨(lastPendingIdx_none_iff _ _).mp hn, happ,
      by rw [happ]; simp⟩

/-- Claim C4 (amended), witness: confirming on a one-record log replaces
the matching pending record in place. -/
theorem confirm_spec_witness :
    pendingState.messages.length < maxMessages ∧
      lastPendingIdx pendingState.messages (S "hi") = some 0 ∧
      (addChatMessage (S "bob") (S "hi") (S "t2") pendingState).messages =
        pendingState.messages.set 0 ⟨.chat, S "bob", S "hi", S "t2", 0⟩ :=
  ⟨by decide, by decide,
   (((confirm_spec pendingState (S "bob") (S "hi") (S "t2") (by decide)).1) 0
      (by decide)).1⟩

/-! ## Mention-autocomplete lemmas -/

theorem lastIndexOfAt_none {s : Str} (h : '@' ∉ s) : lastIndexOfAt s = none := by
  induction s with
  | nil => rfl
  | cons c rest ih =>
    rw [lastIndexOfAt, ih (fun hm => h (List.mem_cons_of_mem _ hm))]
    exact if_neg (fun hc => by subst hc; exact h (List.mem_cons_self _ _))

theorem lastIndexOfAt_marker (pre suf : Str) (h : '@' ∉ suf) :
    lastIndexOfAt (pre ++ '@' :: suf) = some pre.length := by
  induction pre with
  | nil =>
    rw [List.nil_append, lastIndexOfAt, lastIndexOfAt_none h]
    exact if_pos rfl
  | cons c pre ih =>
    rw [List.cons_append, lastIndexOfAt, ih]
    rfl

theorem take_to_marker (pre suf : Str) :
    (pre ++ '@' :: suf).take (pre.length + 1) = pre ++ ['@'] := by
  induction pre with
  | nil => rfl
  | cons c pre ih =>
    simp only [List.cons_append, List.length_cons, List.take_succ_cons, ih]

theorem drop_to_marker (pre suf : Str) :
    (pre ++ '@' :: suf).drop (pre.length + 1) = suf := by
  induction pre with
  | nil => rfl
  | cons c pre ih =>
    simp only [List.cons_append, List.length_cons, List.drop_succ_cons, ih]

/-! ## Claim about mention autocomplete -/

/-- Claim C9: with an `@` marker present, autocomplete returns exactly
the roster names whose lowercase form starts with the lowercased
fragment after the last `@`, each result being the input up to and
including that `@` followed by the full roster name; without any `@`
(in particular for an empty input) there are no suggestions. -/
theorem mention_autocomplete_spec :
    (∀ (users : List Str) (pre suf : Str), '@' ∉ suf →
        handleAutoComplete users (pre ++ '@' :: suf) =
          (users.filter fun u =>
              (toLowerStr suf).isPrefixOf (toLowerStr u)).map
            (fun u => (pre ++ ['@']) ++ u))
    ∧ (∀ (users : List Str) (input : Str), '@' ∉ input →
        handleAutoComplete users input = []) := by
  constructor
  · intro users pre suf h
    unfold handleAutoComplete
    rw [if_neg (by simp), lastIndexOfAt_marker pre suf h]
    simp only [drop_to_marker, take_to_marker]
  · intro users input h
    unfold handleAutoComplete
    split
    · rfl
    · rw [lastIndexOfAt_none h]

/-- Claim C9, witness: on the roster `[Alice, bob, ALina]` and input
`hey @al`, the suggestions are exactly `hey @Alice` and `hey @ALina`. -/
theorem mention_autocomplete_spec_witness :
    ('@' ∉ S "al") ∧
      handleAutoComplete [S "Alice", S "bob", S "ALina"]
          (S "hey " ++ '@' :: S "al") =
        [S "hey @Alice", S "hey @ALina"] := by
  refine ⟨by decide, ?_⟩
  rw [mention_autocomplete_spec.1 [S "Alice", S "bob", S "ALina"]
    (S "hey ") (S "al") (by decide)]
  decide

/-! ## Width-clamping lemmas for the line wrapper -/

theorem two_counts_le_length (a b : Char) (hab : a ≠ b) (l : Str) :
    l.count a + l.count b ≤ l.length := by
  induction l with
  | nil => simp
  | cons c rest ih =>
    by_cases hca : c = a
    · subst hca
      rw [List.count_cons_self, List.count_cons_of_ne (fun h => hab (h.symm)) ]
      simpa using by omega
    · rw [List.count_cons_of_ne (fun h => hca h.symm)]
      by_cases hcb : c = b
      · subst hcb
        rw [List.count_cons_self]
        simpa using by omega
      · rw [List.count_cons_of_ne (fun h => hcb h.symm)]
        simpa using by omega

/-- A character that can never be part of an SGR match is emitted by
every scanner step that consumes it, so stripping cannot lower its
count. -/
theorem count_stripGo_ge (c : Char) (h1 : c ≠ escChar) (h2 : c ≠ '[')
    (h3 : isSgrBody c = false) (h4 : c ≠ 'm') :
    ∀ (s : Str) (st : StripState), s.count c ≤ (stripGo st s).count c := by
  intro s
  induction s with
  | nil => intro st; simp
  | cons d rest ih =>
    intro st
    rw [show stripGo st (d :: rest) =
        (stripStep st d).1 ++ stripGo (stripStep st d).2 rest from rfl]
    rw [List.count_append]
    by_cases hdc : d = c
    · subst hdc
      have hone : 1 ≤ (stripStep st d).1.count d := by
        cases st with
        | normal => simp [stripStep, if_neg h1]
        | afterEsc => simp [stripStep, if_neg h2, if_neg h1]
        | inBody body =>
          simp [stripStep, if_neg h4, h3, if_neg h1, List.count_append]
      have := ih (stripStep st d).2
      rw [List.count_cons_self]
      omega
    · rw [List.count_cons_of_ne (fun h => hdc h.symm)]
      have := ih (stripStep st d).2
      omega

theorem stripAnsi_keeps_space_and_bracket (m : MessageRec) :
    2 ≤ (stripAnsi (grayStr (bracketTs m) ++ ' ' :: renderContent m)).length := by
  set full := grayStr (bracketTs m) ++ ' ' :: renderContent m with hfull
  have hsp : 0 < full.count ' ' :=
    List.count_pos_iff.mpr (by rw [hfull]; simp)
  have hbr : 0 < full.count ']' :=
    List.count_pos_iff.mpr (by rw [hfull]; simp [grayStr, bracketTs])
  have h1 := count_stripGo_ge ' ' (by decide) (by decide) (by decide) (by decide)
    full .normal
  have h2 := count_stripGo_ge ']' (by decide) (by decide) (by decide) (by decide)
    full .normal
  have h3 := two_counts_le_length ' ' ']' (by decide) (stripAnsi full)
  rw [stripAnsi] at *
  omega

theorem wrapWords_width_le_one (tsb : Str) (W : Int) (hW : W ≤ 1) :
    ∀ (ws : List Str) (cur curPlain : Str) (lines : List Str),
      2 ≤ curPlain.length →
      wrapWords tsb W ws cur curPlain lines =
        wrapWords tsb 1 ws cur curPlain lines := by
  intro ws
  induction ws with
  | nil => intro cur curPlain lines _; rfl
  | cons w ws ih =>
    intro cur curPlain lines hlen
    have hnW : ¬ (((curPlain ++ (if endsWithSpace curPlain then [] else [' ']) ++
        stripAnsi w).length : Int) ≤ W) := by
      simp only [List.length_append]
      push_cast
      omega
    have hn1 : ¬ (((curPlain ++ (if endsWithSpace curPlain then [] else [' ']) ++
        stripAnsi w).length : Int) ≤ (1 : Int)) := by
      simp only [List.length_append]
      push_cast
      omega
    simp only [wrapWords]
    rw [if_neg hnW, if_neg hn1]
    refine ih _ _ _ ?_
    simp only [wrapIndent, List.length_append, List.length_replicate]
    omega

theorem wrap_clamps (m : MessageRec) (W : Int) (hW : W ≤ 1) :
    formatMessageToLines m W = formatMessageToLines m 1 := by
  have h2 := stripAnsi_keeps_space_and_bracket m
  have hneg1 : ¬ (((stripAnsi (grayStr (bracketTs m) ++
      ' ' :: renderContent m)).length : Int) ≤ W) := by omega
  have hneg2 : ¬ (((stripAnsi (grayStr (bracketTs m) ++
      ' ' :: renderContent m)).length : Int) ≤ (1 : Int)) := by omega
  simp only [formatMessageToLines]
  rw [if_neg hneg1, if_neg hneg2]
  rw [wrapWords_width_le_one (bracketTs m) W hW (splitOnSpace (renderContent m))
    (grayStr (bracketTs m) ++ [' ']) (bracketTs m ++ [' ']) []
    (by simp [bracketTs])]

/-! ## Claims about the line wrapper (single line and clamping) -/

/-- Claim C7: when the unstyled rendering fits in `maxWidth`, the wrap
returns exactly one line — the styled rendering, unmodified. -/
theorem wrap_single_line :
    ∀ (m : MessageRec) (maxWidth : Int),
      ((stripAnsi (styledRender m)).length : Int) ≤ maxWidth →
      formatMessageToLines m maxWidth = [styledRender m] := by
  intro m W h
  simp only [styledRender] at h
  simp only [formatMessageToLines]
  rw [if_pos h]
  simp only [styledRender]

/-- Claim C7, witness: a short message at width 100 renders as its
single styled line. -/
theorem wrap_single_line_witness :
    ((stripAnsi (styledRender sampleRec)).length : Int) ≤ 100 ∧
      formatMessageToLines sampleRec 100 = [styledRender sampleRec] :=
  ⟨by decide, wrap_single_line sampleRec 100 (by decide)⟩

/-- Claim C8: for `maxWidth ≤ 0` the wrap degrades to the minimum-viable
layout: its output equals the output at `maxWidth = 1`. -/
theorem wrap_nonpositive_clamps :
    ∀ (m : MessageRec) (maxWidth : Int), maxWidth ≤ 0 →
      formatMessageToLines m maxWidth = formatMessageToLines m 1 :=
  fun m W h => wrap_clamps m W (by omega)

/-- Claim C8, witness: width `-3` produces the same lines as width 1. -/
theorem wrap_nonpositive_clamps_witness :
    ((-3 : Int) ≤ 0) ∧
      formatMessageToLines sampleRec (-3) = formatMessageToLines sampleRec 1 :=
  ⟨by decide, wrap_nonpositive_clamps sampleRec (-3) (by decide)⟩

/-! ## ANSI-stripping lemmas -/

theorem stripGo_cons_safe {c : Char} (h : c ≠ escChar) (r : Str) :
    stripGo .normal (c :: r) = c :: stripGo .normal r := by
  simp [stripGo, stripStep, h]

theorem stripGo_escFree_append {s : Str} (h : escFree s) (r : Str) :
    stripGo .normal (s ++ r) = s ++ stripGo .normal r := by
  induction s with
  | nil => rfl
  | cons c rest ih =>
    have hc : c ≠ escChar := fun hc => h (hc ▸ List.mem_cons_self _ _)
    rw [List.cons_append, stripGo_cons_safe hc,
      ih (fun hm => h (List.mem_cons_of_mem _ hm))]
    rfl

theorem stripAnsi_escFree {s : Str} (h : escFree s) : stripAnsi s = s := by
  have := stripGo_escFree_append h []
  rw [List.append_nil] at this
  simpa [stripAnsi, stripGo, stripFlush] using this

theorem isSgrBody_ne_m {c : Char} (h : isSgrBody c = true) : c ≠ 'm' := by
  intro hc
  subst hc
  simp [isSgrBody] at h

theorem isSgrBody_ne_esc {c : Char} (h : isSgrBody c = true) : c ≠ escChar := by
  intro hc
  subst hc
  simp [isSgrBody, escChar] at h

theorem stripGo_inBody_run (body : Str)
    (hb : ∀ c ∈ body, isSgrBody c = true) :
    ∀ (b r : Str), stripGo (.inBody b) (body ++ 'm' :: r) = stripGo .normal r := by
  induction body with
  | nil =>
    intro b r
    simp [stripGo, stripStep]
  | cons c body ih =>
    intro b r
    have hc : isSgrBody c = true := hb c (List.mem_cons_self _ _)
    have h1 : c ≠ 'm' := isSgrBody_ne_m hc
    have hstep : stripStep (.inBody b) c = ([], .inBody (b ++ [c])) := by
      simp [stripStep, if_neg h1, hc]
    rw [List.cons_append,
      show stripGo (.inBody b) (c :: (body ++ 'm' :: r)) =
        (stripStep (.inBody b) c).1 ++
          stripGo (stripStep (.inBody b) c).2 (body ++ 'm' :: r) from rfl,
      hstep]
    rw [ih (fun d hd => hb d (List.mem_cons_of_mem _ hd)) (b ++ [c]) r]
    rfl

theorem stripGo_sgr_append (body r : Str)
    (hb : ∀ c ∈ body, isSgrBody c = true) :
    stripGo .normal (sgr body ++ r) = stripGo .normal r := by
  have h1 : sgr body ++ r = escChar :: '[' :: (body ++ 'm' :: r) := by
    simp [sgr]
  rw [h1]
  rw [show stripGo .normal (escChar :: '[' :: (body ++ 'm' :: r)) =
      stripGo (.inBody []) (body ++ 'm' :: r) from by
    simp [stripGo, stripStep]]
  exact stripGo_inBody_run body hb [] r

theorem stripAnsi_sgr_append (body r : Str)
    (hb : ∀ c ∈ body, isSgrBody c = true) :
    stripAnsi (sgr body ++ r) = stripAnsi r :=
  stripGo_sgr_append body r hb

theorem stripAnsi_sgr (body : Str) (hb : ∀ c ∈ body, isSgrBody c = true) :
    stripAnsi (sgr body) = [] := by
  have := stripAnsi_sgr_append body [] hb
  rw [List.append_nil] at this
  simpa [stripAnsi, stripGo, stripFlush] using this

theorem closed_sgr (body : Str) (hb : ∀ c ∈ body, isSgrBody c = true) :
    Closed (sgr body) := by
  intro t
  rw [stripAnsi_sgr_append body t hb, stripAnsi_sgr body hb]
  rfl

theorem closed_escFree {s : Str} (h : escFree s) : Closed s := by
  intro t
  show stripGo .normal (s ++ t) = _
  rw [stripGo_escFree_append h t, stripAnsi_escFree h]
  rfl

theorem closed_append {a b : Str} (ha : Closed a) (hb : Closed b) :
    Closed (a ++ b) := by
  intro t
  rw [List.append_assoc, ha (b ++ t), hb t, ha b, List.append_assoc]

theorem closed_grayStr {s : Str} (h : escFree s) : Closed (grayStr s) :=
  closed_append (closed_append (closed_sgr _ (by decide)) (closed_escFree h))
    (closed_sgr _ (by decide))

theorem closed_greenBold {s : Str} (h : escFree s) : Closed (greenBold s) :=
  closed_append (closed_append (closed_append
    (closed_append (closed_sgr _ (by decide)) (closed_sgr _ (by decide)))
    (closed_escFree h)) (closed_sgr _ (by decide))) (closed_sgr _ (by decide))

theorem stripAnsi_grayStr {s : Str} (h : escFree s) :
    stripAnsi (grayStr s) = s := by
  rw [grayStr, List.append_assoc, stripAnsi_sgr_append _ _ (by decide),
    closed_escFree h (sgr (S "39")), stripAnsi_escFree h,
    stripAnsi_sgr _ (by decide), List.append_nil]

theorem stripAnsi_grayStr_append {s : Str} (h : escFree s) (r : Str) :
    stripAnsi (grayStr s ++ r) = s ++ stripAnsi r := by
  rw [closed_grayStr h r, stripAnsi_grayStr h]

theorem stripAnsi_greenBold {s : Str} (h : escFree s) :
    stripAnsi (greenBold s) = s := by
  rw [greenBold, List.append_assoc, List.append_assoc, List.append_assoc,
    stripAnsi_sgr_append _ _ (by decide), stripAnsi_sgr_append _ _ (by decide),
    closed_escFree h _, stripAnsi_escFree h,
    stripAnsi_sgr_append _ _ (by decide), stripAnsi_sgr _ (by decide),
    List.append_nil]

theorem stripAnsi_greenBold_append {s : Str} (h : escFree s) (r : Str) :
    stripAnsi (greenBold s ++ r) = s ++ stripAnsi r := by
  rw [closed_greenBold h r, stripAnsi_greenBold h]

/-! ## Token and join lemmas -/

theorem wsFree_not_space {p : Str} (h : wsFree p) : ' ' ∉ p := by
  intro hm
  have := h ' ' hm
  simp [isJsWs] at this

theorem tokensGo_word (t : Str) (ht : ' ' ∉ t) :
    ∀ (cur r : Str), tokensGo cur (t ++ r) = tokensGo (cur ++ t) r := by
  induction t with
  | nil =>
    intro cur r
    rw [List.nil_append, List.append_nil]
  | cons c t ih =>
    intro cur r
    have hc : c ≠ ' ' := fun h => ht (h ▸ List.mem_cons_self _ _)
    rw [List.cons_append]
    show tokensGo cur (c :: (t ++ r)) = _
    rw [show tokensGo cur (c :: (t ++ r)) =
        tokensGo (cur ++ [c]) (t ++ r) from by simp [tokensGo, hc]]
    rw [ih (fun hm => ht (List.mem_cons_of_mem _ hm)) (cur ++ [c]) r]
    simp

theorem tokensGo_space_cons (cur r : Str) (h : cur ≠ []) :
    tokensGo cur (' ' :: r) = cur :: tokensGo [] r := by
  simp [tokensGo, h]

theorem tokensGo_nil_space (r : Str) :
    tokensGo [] (' ' :: r) = tokensGo [] r := by
  simp [tokensGo]

theorem tokensGo_end (cur : Str) (h : cur ≠ []) : tokensGo cur [] = [cur] := by
  simp [tokensGo, h]

theorem tokens_spaces_prefix (n : Nat) (r : Str) :
    tokensGo [] (List.replicate n ' ' ++ r) = tokensGo [] r := by
  induction n with
  | zero => rfl
  | succ n ih =>
    rw [List.replicate_succ, List.cons_append, tokensGo_nil_space, ih]

theorem joinSp_ne_nil {ps : List Str} (h : WordsOK ps) (hne : ps ≠ []) :
    joinSp ps ≠ [] := by
  cases ps with
  | nil => exact absurd rfl hne
  | cons p qs =>
    cases qs with
    | nil => exact (h p (List.mem_cons_self _ _)).1
    | cons q rest =>
      show p ++ ' ' :: joinSp (q :: rest) ≠ []
      intro hcon
      have := congrArg List.length hcon
      simp at this

theorem joinSp_append_last (ps : List Str) (p : Str) (hne : ps ≠ []) :
    joinSp (ps ++ [p]) = joinSp ps ++ ' ' :: p := by
  induction ps with
  | nil => exact absurd rfl hne
  | cons q qs ih =>
    cases qs with
    | nil => rfl
    | cons q' rest =>
      show joinSp (q :: ((q' :: rest) ++ [p])) = _
      rw [show joinSp (q :: ((q' :: rest) ++ [p])) =
          q ++ ' ' :: joinSp ((q' :: rest) ++ [p]) from rfl]
      rw [ih (List.cons_ne_nil _ _)]
      show _ = (q ++ ' ' :: joinSp (q' :: rest)) ++ ' ' :: p
      rw [List.append_assoc, List.cons_append]

theorem joinSp_mem {ps : List Str} {p : Str} {c : Char}
    (hp : p ∈ ps) (hc : c ∈ p) : c ∈ joinSp ps := by
  induction ps with
  | nil => cases hp
  | cons q qs ih =>
    cases qs with
    | nil =>
      rcases List.mem_cons.mp hp with rfl | h
      · exact hc
      · cases h
    | cons q' rest =>
      show c ∈ q ++ ' ' :: joinSp (q' :: rest)
      rcases List.mem_cons.mp hp with rfl | h
      · exact List.mem_append_left _ hc
      · exact List.mem_append_right _ (List.mem_cons_of_mem _ (ih h))

theorem tokensGo_joinSp (ps : List Str) (h : WordsOK ps) :
    tokensGo [] (joinSp ps) = ps := by
  induction ps with
  | nil => rfl
  | cons p qs ih =>
    have hp := h p (List.mem_cons_self _ _)
    have hsp : ' ' ∉ p := wsFree_not_space hp.2
    cases qs with
    | nil =>
      show tokensGo [] p = [p]
      have := tokensGo_word p hsp [] []
      rw [List.append_nil, List.nil_append] at this
      rw [this, tokensGo_end p hp.1]
    | cons q rest =>
      show tokensGo [] (p ++ ' ' :: joinSp (q :: rest)) = _
      rw [tokensGo_word p hsp [] (' ' :: joinSp (q :: rest)), List.nil_append,
        tokensGo_space_cons _ _ hp.1,
        ih (fun w hw => h w (List.mem_cons_of_mem _ hw))]

theorem tokens_ts_line (tsb : Str) (ps : List Str) (htsb : ' ' ∉ tsb)
    (hne : tsb ≠ []) (h : WordsOK ps) (hps : ps ≠ []) :
    tokens ((tsb ++ [' ']) ++ joinSp ps) = tsb :: ps := by
  rw [tokens, List.append_assoc, List.cons_append, List.nil_append,
    tokensGo_word tsb htsb [] (' ' :: joinSp ps), List.nil_append,
    tokensGo_space_cons _ _ hne, tokensGo_joinSp ps h]

theorem tokens_indent_line (tsb : Str) (ps : List Str) (h : WordsOK ps) :
    tokens (wrapIndent tsb ++ joinSp ps) = ps := by
  rw [tokens, wrapIndent, tokens_spaces_prefix, tokensGo_joinSp ps h]

/-! ## Last-character and trim lemmas -/

theorem endsWithSpace_concat (x : Str) : endsWithSpace (x ++ [' ']) = true := by
  simp [endsWithSpace, List.getLast?_concat]

theorem getLast_not_ws_of_wsFree {p : Str} (h : wsFree p) (hne : p ≠ []) :
    ∃ c, p.getLast? = some c ∧ isJsWs c = false := by
  refine ⟨p.getLast hne, List.getLast?_eq_getLast p hne, ?_⟩
  exact h _ (List.getLast_mem hne)

theorem joinSp_getLast_not_ws {ps : List Str} (h : WordsOK ps) (hne : ps ≠ []) :
    ∃ c, (joinSp ps).getLast? = some c ∧ isJsWs c = false := by
  induction ps with
  | nil => exact absurd rfl hne
  | cons p qs ih =>
    cases qs with
    | nil =>
      exact getLast_not_ws_of_wsFree (h p (List.mem_cons_self _ _)).2
        (h p (List.mem_cons_self _ _)).1
    | cons q rest =>
      obtain ⟨c, hc1, hc2⟩ := ih (fun w hw => h w (List.mem_cons_of_mem _ hw))
        (List.cons_ne_nil _ _)
      refine ⟨c, ?_, hc2⟩
      show (p ++ ' ' :: joinSp (q :: rest)).getLast? = some c
      rw [List.getLast?_append_of_ne_nil _ (List.cons_ne_nil _ _)]
      have hj : joinSp (q :: rest) ≠ [] :=
        joinSp_ne_nil (fun w hw => h w (List.mem_cons_of_mem _ hw))
          (List.cons_ne_nil _ _)
      rw [show (' ' :: joinSp (q :: rest) : Str) = [' '] ++ joinSp (q :: rest)
          from rfl,
        List.getLast?_append_of_ne_nil _ hj, hc1]

theorem endsWithSpace_active (pfx : Str) {ps : List Str} (h : WordsOK ps)
    (hne : ps ≠ []) : endsWithSpace (pfx ++ joinSp ps) = false := by
  obtain ⟨c, hc1, hc2⟩ := joinSp_getLast_not_ws h hne
  have : (pfx ++ joinSp ps).getLast? = some c := by
    rw [List.getLast?_append_of_ne_nil _ (joinSp_ne_nil h hne), hc1]
  simp only [endsWithSpace, this]
  simp only [decide_eq_false_iff_not]
  intro heq
  injection heq with heq
  rw [heq] at hc2
  simp [isJsWs] at hc2

theorem jsTrim_decomp (s : Str) :
    ∃ a b, s = a ++ jsTrim s ++ b ∧ (∀ c ∈ a, isJsWs c = true) ∧
      (∀ c ∈ b, isJsWs c = true) := by
  have h1 : s.takeWhile isJsWs ++ s.dropWhile isJsWs = s :=
    List.takeWhile_append_dropWhile isJsWs s
  have h2 : (s.dropWhile isJsWs).reverse.takeWhile isJsWs ++
      (s.dropWhile isJsWs).reverse.dropWhile isJsWs =
        (s.dropWhile isJsWs).reverse :=
    List.takeWhile_append_dropWhile isJsWs _
  refine ⟨s.takeWhile isJsWs,
    ((s.dropWhile isJsWs).reverse.takeWhile isJsWs).reverse, ?_, ?_, ?_⟩
  · rw [List.append_assoc]
    conv_lhs => rw [← h1]
    congr 1
    rw [jsTrim]
    conv_lhs => rw [← List.reverse_reverse (s.dropWhile isJsWs), ← h2]
    rw [List.reverse_append]
  · exact fun c hc => List.mem_takeWhile_imp hc
  · exact fun c hc => List.mem_takeWhile_imp (List.mem_reverse.mp hc)

theorem jsTrim_virgin (tsb : Str) :
    jsTrim (grayStr tsb ++ [' ']) = grayStr tsb := by
  rw [jsTrim]
  have hc1 : grayStr tsb ++ [' '] =
      escChar :: ('[' :: (S "90" ++ ['m']) ++ (tsb ++ (sgr (S "39") ++ [' ']))) := by
    simp [grayStr, sgr]
  have hdw1 : List.dropWhile isJsWs (grayStr tsb ++ [' ']) =
      grayStr tsb ++ [' '] := by
    rw [hc1, List.dropWhile_cons, if_neg (by decide)]
  rw [hdw1]
  have hrev : (grayStr tsb ++ [' ']).reverse = ' ' :: (grayStr tsb).reverse := by
    rw [List.reverse_append]
    rfl
  rw [hrev, List.dropWhile_cons, if_pos (by decide)]
  have hm : grayStr tsb =
      (sgr (S "90") ++ tsb ++ (escChar :: '[' :: S "39")) ++ ['m'] := by
    simp [grayStr, sgr]
  have hm2 : (grayStr tsb).reverse =
      'm' :: (sgr (S "90") ++ tsb ++ (escChar :: '[' :: S "39")).reverse := by
    rw [hm, List.reverse_append]
    rfl
  rw [hm2, List.dropWhile_cons, if_neg (by decide), ← hm2,
    List.reverse_reverse]

theorem tsb_ne_nil_of_head {tsb : Str} (h : tsb.head? = some '[') : tsb ≠ [] := by
  intro hn
  rw [hn] at h
  cases h

theorem escFree_of_ws {b : Str} (hb : ∀ c ∈ b, isJsWs c = true) : escFree b := by
  intro hm
  have := hb escChar hm
  simp [isJsWs, escChar] at this

theorem escFree_replicate_space (n : Nat) : escFree (List.replicate n ' ') := by
  intro hm
  have := List.eq_of_mem_replicate hm
  simp [escChar] at this

theorem wrapIndent_ne_nil (tsb : Str) : wrapIndent tsb ≠ [] := by
  simp [wrapIndent]

theorem wrapIndent_head (tsb : Str) : (wrapIndent tsb).head? = some ' ' := by
  rw [wrapIndent, List.replicate_succ]
  rfl

theorem stripAnsi_cur0 {tsb : Str} (hesc : escFree tsb) :
    stripAnsi (grayStr tsb ++ [' ']) = tsb ++ [' '] := by
  rw [stripAnsi_grayStr_append hesc]
  rfl

theorem active_ne_cur0 {tsb cur curPlain : Str} {curPs : List Str}
    (hesc : escFree tsb)
    (hstrip : stripAnsi cur = curPlain) (hcurPs : WordsOK curPs)
    (hne : curPs ≠ [])
    (hshape : curPlain = (tsb ++ [' ']) ++ joinSp curPs ∨
      curPlain = wrapIndent tsb ++ joinSp curPs) :
    cur ≠ grayStr tsb ++ [' '] := by
  intro heq
  rw [heq, stripAnsi_cur0 hesc] at hstrip
  have hlen := congrArg List.length hstrip
  have hjoin : 0 < (joinSp curPs).length :=
    List.length_pos.mpr (joinSp_ne_nil hcurPs hne)
  rcases hshape with h | h <;> rw [h] at hlen <;>
    simp only [List.length_append, List.length_cons, List.length_nil,
      wrapIndent, List.length_replicate] at hlen <;> omega

theorem active_jsTrim_ne {tsb cur curPlain : Str} {curPs : List Str}
    (hesc : escFree tsb) (hheadts : tsb.head? = some '[')
    (hhead : cur.head? = some escChar)
    (hstrip : stripAnsi cur = curPlain) (hcurPs : WordsOK curPs)
    (hne : curPs ≠ [])
    (hshape : curPlain = (tsb ++ [' ']) ++ joinSp curPs ∨
      curPlain = wrapIndent tsb ++ joinSp curPs) :
    jsTrim cur ≠ grayStr tsb := by
  intro heq
  obtain ⟨a, b, hdec, ha, hb⟩ := jsTrim_decomp cur
  rw [heq] at hdec
  have ha0 : a = [] := by
    cases a with
    | nil => rfl
    | cons x xs =>
      have hx : cur.head? = some x := by rw [hdec]; rfl
      rw [hhead] at hx
      injection hx with hx
      have := ha x (List.mem_cons_self _ _)
      rw [← hx] at this
      simp [isJsWs, escChar] at this
  subst ha0
  rw [List.nil_append] at hdec
  have hbesc : escFree b := escFree_of_ws hb
  have hstrip2 : curPlain = tsb ++ b := by
    rw [← hstrip, hdec, stripAnsi_grayStr_append hesc, stripAnsi_escFree hbesc]
  rcases hshape with h | h
  · rw [h] at hstrip2
    rw [List.append_assoc] at hstrip2
    have hbeq : [' '] ++ joinSp curPs = b := List.append_cancel_left hstrip2
    cases hps : curPs with
    | nil => exact hne hps
    | cons p rest =>
      have hp := hcurPs p (hps ▸ List.mem_cons_self _ _)
      cases hp1 : p with
      | nil => exact hp.1 hp1
      | cons c cs =>
        have hcp : c ∈ joinSp curPs :=
          joinSp_mem (hps ▸ List.mem_cons_self _ _)
            (hp1 ▸ List.mem_cons_self _ _)
        have hcb : c ∈ b := by
          rw [← hbeq]
          exact List.mem_append_right _ hcp
        have h1 := hb c hcb
        have h2 := hp.2 c (hp1 ▸ List.mem_cons_self _ _)
        rw [h1] at h2
        cases h2
  · rw [h] at hstrip2
    have h1 : (wrapIndent tsb ++ joinSp curPs).head? = some ' ' := by
      rw [List.head?_append_of_ne_nil _ (wrapIndent_ne_nil tsb),
        wrapIndent_head]
    rw [hstrip2, List.head?_append_of_ne_nil _ (tsb_ne_nil_of_head hheadts),
      hheadts] at h1
    cases h1

/-! ## Shape bookkeeping lemmas -/

theorem sgr_ne_nil (body : Str) : sgr body ≠ [] := by
  simp [sgr]

theorem grayStr_head (s : Str) : (grayStr s).head? = some escChar := by
  rw [grayStr, List.append_assoc,
    List.head?_append_of_ne_nil _ (sgr_ne_nil _)]
  rfl

theorem cur0_ne_nil (tsb : Str) : grayStr tsb ++ [' '] ≠ [] := by
  intro h
  have := congrArg List.length h
  simp at this

theorem grayStr_ne_nil (s : Str) : grayStr s ≠ [] := by
  intro h
  have := congrArg List.length h
  simp [grayStr, sgr] at this

theorem cur0_head (tsb : Str) : (grayStr tsb ++ [' ']).head? = some escChar := by
  rw [List.head?_append_of_ne_nil _ (grayStr_ne_nil tsb), grayStr_head]

theorem closed_cur0 {tsb : Str} (h : escFree tsb) :
    Closed (grayStr tsb ++ [' ']) :=
  closed_append (closed_grayStr h)
    (closed_escFree (fun hm => by
      rcases List.mem_singleton.mp hm with h1
      simp [escChar] at h1))

theorem stripAnsi_space_cons (w : Str) :
    stripAnsi (' ' :: w) = ' ' :: stripAnsi w :=
  stripGo_cons_safe (by decide) w

theorem closed_space_cons {w : Str} (hw : Closed w) : Closed (' ' :: w) := by
  have : (' ' :: w : Str) = [' '] ++ w := rfl
  rw [this]
  exact closed_append (closed_escFree (fun hm => by
    rcases List.mem_singleton.mp hm with h1
    simp [escChar] at h1)) hw

theorem LineShape_mono {tsb : Str} {W : Int} {pl : Str} {ps : List Str}
    {f : Bool} (h : LineShape tsb W pl ps false) : LineShape tsb W pl ps f := by
  obtain ⟨h1, h2, h3⟩ := h
  refine ⟨h1, h2, ?_⟩
  rcases h3 with ⟨hf, -, -⟩ | hr
  · cases hf
  · exact Or.inr hr

theorem LinesShape_push {tsb : Str} {W : Int} :
    ∀ {ls : List Str} {pss : List (List Str)} {f : Bool} {l : Str}
      {ps : List Str},
      LinesShape tsb W ls pss f → LineShape tsb W (stripAnsi l) ps false →
      LinesShape tsb W (ls ++ [l]) (pss ++ [ps]) f := by
  intro ls
  induction ls with
  | nil =>
    intro pss f l ps h hl
    cases pss with
    | nil => exact ⟨LineShape_mono hl, trivial⟩
    | cons ps₀ pss => cases h
  | cons l₀ ls ih =>
    intro pss f l ps h hl
    cases pss with
    | nil => cases h
    | cons ps₀ pss =>
      obtain ⟨h₀, hrest⟩ := h
      exact ⟨h₀, ih hrest hl⟩

theorem LineShape_conclusion {tsb : Str} {W : Int} {pl : Str} {ps : List Str}
    {f : Bool} (h : LineShape tsb W pl ps f) :
    ((pl.length : Int) ≤ W) ∨ (tokens pl).length = 1 := by
  obtain ⟨h1, h2, h3⟩ := h
  rcases h3 with ⟨-, -, hw⟩ | ⟨hshape, hw⟩
  · exact Or.inl hw
  · rcases hw with hw | hw
    · exact Or.inl hw
    · refine Or.inr ?_
      rw [hshape, tokens_indent_line tsb ps h1, hw]

theorem LinesShape_lines_ok {tsb : Str} {W : Int} :
    ∀ {ls : List Str} {pss : List (List Str)} {f : Bool},
      LinesShape tsb W ls pss f →
      ∀ l ∈ ls, ((stripAnsi l).length : Int) ≤ W ∨
        (tokens (stripAnsi l)).length = 1 := by
  intro ls
  induction ls with
  | nil => intro pss f _ l hl; cases hl
  | cons l₀ ls ih =>
    intro pss f h l hl
    cases pss with
    | nil => cases h
    | cons ps₀ pss =>
      obtain ⟨h₀, hrest⟩ := h
      rcases List.mem_cons.mp hl with rfl | hl
      · exact LineShape_conclusion h₀
      · exact ih hrest l hl

theorem LinesShape_tokens_false {tsb : Str} {W : Int} :
    ∀ {ls : List Str} {pss : List (List Str)},
      LinesShape tsb W ls pss false →
      (ls.map fun l => tokens (stripAnsi l)).flatten = pss.flatten := by
  intro ls
  induction ls with
  | nil =>
    intro pss h
    cases pss with
    | nil => rfl
    | cons ps₀ pss => cases h
  | cons l₀ ls ih =>
    intro pss h
    cases pss with
    | nil => cases h
    | cons ps₀ pss =>
      obtain ⟨⟨h1, h2, h3⟩, hrest⟩ := h
      rcases h3 with ⟨hf, -, -⟩ | ⟨hshape, -⟩
      · cases hf
      · simp only [List.map_cons, List.flatten_cons]
        rw [hshape, tokens_indent_line tsb ps₀ h1, ih hrest]

theorem LinesShape_tokens {tsb : Str} {W : Int} (hsp : ' ' ∉ tsb)
    (hne : tsb ≠ []) :
    ∀ {ls : List Str} {pss : List (List Str)},
      LinesShape tsb W ls pss true →
      (ls.map fun l => tokens (stripAnsi l)).flatten = pss.flatten ∨
      (ls.map fun l => tokens (stripAnsi l)).flatten = tsb :: pss.flatten := by
  intro ls pss h
  cases ls with
  | nil =>
    cases pss with
    | nil => exact Or.inl rfl
    | cons ps₀ pss => cases h
  | cons l₀ ls =>
    cases pss with
    | nil => cases h
    | cons ps₀ pss =>
      obtain ⟨⟨h1, h2, h3⟩, hrest⟩ := h
      have hrestJ := LinesShape_tokens_false hrest
      rcases h3 with ⟨-, hshape, -⟩ | ⟨hshape, -⟩
      · refine Or.inr ?_
        simp only [List.map_cons, List.flatten_cons]
        rw [hshape, tokens_ts_line tsb ps₀ hsp hne h1 h2, hrestJ]
        rfl
      · refine Or.inl ?_
        simp only [List.map_cons, List.flatten_cons]
        rw [hshape, tokens_indent_line tsb ps₀ h1, hrestJ]

/-! ## The word-loop invariant -/

theorem wrapWords_inv (tsb : Str) (W : Int)
    (hsp : ' ' ∉ tsb) (hesc : escFree tsb)
    (hhd : tsb.head? = some '[') :
    ∀ (ws : List Str),
      (∀ w ∈ ws, Closed w ∧ stripAnsi w ≠ [] ∧ wsFree (stripAnsi w)) →
      ∀ (cur curPlain : Str) (lines : List Str) (pss : List (List Str))
        (curPs : List Str),
        StateInv tsb W cur curPlain lines pss curPs →
        ∃ pss₂ curPs₂,
          StateInv tsb W (wrapWords tsb W ws cur curPlain lines).2
            (stripAnsi (wrapWords tsb W ws cur curPlain lines).2)
            (wrapWords tsb W ws cur curPlain lines).1 pss₂ curPs₂ ∧
          pss₂.flatten ++ curPs₂ =
            pss.flatten ++ curPs ++ ws.map stripAnsi := by
  intro ws
  induction ws with
  | nil =>
    intro hws cur curPlain lines pss curPs hinv
    refine ⟨pss, curPs, ?_, by simp⟩
    show StateInv tsb W cur (stripAnsi cur) lines pss curPs
    rw [hinv.1]
    exact hinv
  | cons w ws ih =>
    intro hws cur curPlain lines pss curPs hinv
    obtain ⟨hstrip, hclosed, hhead, hlines, hcase⟩ := hinv
    obtain ⟨hwC, hwne, hwws⟩ := hws w (List.mem_cons_self _ _)
    have hws' := fun x hx => hws x (List.mem_cons_of_mem _ hx)
    have hcurne : cur ≠ [] := by
      intro h
      rw [h] at hhead
      cases hhead
    simp only [wrapWords]
    cases hcase with
    | inl hv =>
      obtain ⟨hcur, hplain, hcps, hlines0, hpss0⟩ := hv
      subst hplain hcps hlines0 hpss0 hcur
      rw [if_pos (endsWithSpace_concat tsb), List.append_nil]
      by_cases hfit : (((tsb ++ [' ']) ++ stripAnsi w).length : Int) ≤ W
      · rw [if_pos hfit, if_pos rfl]
        have hnew : StateInv tsb W ((grayStr tsb ++ [' ']) ++ w)
            ((tsb ++ [' ']) ++ stripAnsi w) [] [] [stripAnsi w] := by
          refine ⟨?_, closed_append (closed_cur0 hesc) hwC, ?_, trivial, ?_⟩
          · rw [closed_cur0 hesc w, stripAnsi_cur0 hesc]
          · rw [List.head?_append_of_ne_nil _ (cur0_ne_nil tsb), cur0_head]
          · refine Or.inr ⟨by simp, ?_, Or.inl ⟨rfl, hfit, rfl, rfl⟩⟩
            intro p hp
            rw [List.mem_singleton.mp hp]
            exact ⟨hwne, hwws⟩
        obtain ⟨pss₂, curPs₂, hinv₂, hacc₂⟩ := ih hws' _ _ _ _ _ hnew
        refine ⟨pss₂, curPs₂, hinv₂, ?_⟩
        rw [hacc₂]
        simp
      · rw [if_neg hfit, if_neg (not_not_intro (jsTrim_virgin tsb))]
        have hnew : StateInv tsb W (grayStr (wrapIndent tsb) ++ w)
            (wrapIndent tsb ++ stripAnsi w) [] [] [stripAnsi w] := by
          refine ⟨stripAnsi_grayStr_append (escFree_replicate_space _) w,
            closed_append (closed_grayStr (escFree_replicate_space _)) hwC,
            ?_, trivial,
            Or.inr ⟨by simp, ?_, Or.inr ⟨rfl, Or.inr rfl⟩⟩⟩
          · rw [List.head?_append_of_ne_nil _ (grayStr_ne_nil _), grayStr_head]
          · intro p hp
            rw [List.mem_singleton.mp hp]
            exact ⟨hwne, hwws⟩
        obtain ⟨pss₂, curPs₂, hinv₂, hacc₂⟩ := ih hws' _ _ _ _ _ hnew
        refine ⟨pss₂, curPs₂, hinv₂, ?_⟩
        rw [hacc₂]
        simp
    | inr ha =>
      obtain ⟨hcpne, hcpok, hsub⟩ := ha
      have hshape : curPlain = (tsb ++ [' ']) ++ joinSp curPs ∨
          curPlain = wrapIndent tsb ++ joinSp curPs := by
        rcases hsub with ⟨h, -, -, -⟩ | ⟨h, -⟩
        · exact Or.inl h
        · exact Or.inr h
      have hends : endsWithSpace curPlain = false := by
        rcases hshape with h | h <;> rw [h] <;>
          exact endsWithSpace_active _ hcpok hcpne
      have hendsP : ¬ (endsWithSpace curPlain = true) := by
        rw [hends]
        simp
      rw [if_neg hendsP]
      by_cases hfit : (((curPlain ++ [' ']) ++ stripAnsi w).length : Int) ≤ W
      · rw [if_pos hfit, if_neg (active_ne_cur0 hesc hstrip hcpok hcpne hshape)]
        have hplain' : stripAnsi (cur ++ ' ' :: w) =
            curPlain ++ ' ' :: stripAnsi w := by
          rw [hclosed (' ' :: w), stripAnsi_space_cons, hstrip]
        have hok' : WordsOK (curPs ++ [stripAnsi w]) := by
          intro q hq
          rcases List.mem_append.mp hq with hq | hq
          · exact hcpok q hq
          · rw [List.mem_singleton.mp hq]
            exact ⟨hwne, hwws⟩
        have hlen' : ((curPlain ++ ' ' :: stripAnsi w).length : Int) ≤ W := by
          have heq : curPlain ++ ' ' :: stripAnsi w =
              (curPlain ++ [' ']) ++ stripAnsi w := by
            simp
          rw [heq]
          exact hfit
        have hnew : StateInv tsb W (cur ++ ' ' :: w)
            (curPlain ++ ' ' :: stripAnsi w) lines pss
            (curPs ++ [stripAnsi w]) := by
          refine ⟨hplain', closed_append hclosed (closed_space_cons hwC), ?_,
            hlines, Or.inr ⟨by simp, hok', ?_⟩⟩
          · rw [List.head?_append_of_ne_nil _ hcurne, hhead]
          · rcases hsub with ⟨hq, -, hl0, hp0⟩ | ⟨hq, -⟩
            · refine Or.inl ⟨?_, hlen', hl0, hp0⟩
              rw [hq, joinSp_append_last curPs (stripAnsi w) hcpne,
                ← List.append_assoc]
            · refine Or.inr ⟨?_, Or.inl hlen'⟩
              rw [hq, joinSp_append_last curPs (stripAnsi w) hcpne,
                ← List.append_assoc]
        obtain ⟨pss₂, curPs₂, hinv₂, hacc₂⟩ := ih hws' _ _ _ _ _ hnew
        refine ⟨pss₂, curPs₂, hinv₂, ?_⟩
        rw [hacc₂]
        simp
      · rw [if_neg hfit,
          if_pos (active_jsTrim_ne hesc hhd hhead hstrip hcpok hcpne hshape)]
        have hlines' : LinesShape tsb W (lines ++ [cur]) (pss ++ [curPs])
            true := by
          rcases hsub with ⟨hq, hlenq, hl0, hp0⟩ | ⟨hq, hw⟩
          · subst hl0 hp0
            exact ⟨⟨hcpok, hcpne, Or.inl ⟨rfl, by rw [hstrip]; exact hq,
              by rw [hstrip]; exact hlenq⟩⟩, trivial⟩
          · exact LinesShape_push hlines ⟨hcpok, hcpne,
              Or.inr ⟨by rw [hstrip]; exact hq, by rw [hstrip]; exact hw⟩⟩
        have hnew : StateInv tsb W (grayStr (wrapIndent tsb) ++ w)
            (wrapIndent tsb ++ stripAnsi w) (lines ++ [cur]) (pss ++ [curPs])
            [stripAnsi w] := by
          refine ⟨stripAnsi_grayStr_append (escFree_replicate_space _) w,
            closed_append (closed_grayStr (escFree_replicate_space _)) hwC,
            ?_, hlines',
            Or.inr ⟨by simp, ?_, Or.inr ⟨rfl, Or.inr rfl⟩⟩⟩
          · rw [List.head?_append_of_ne_nil _ (grayStr_ne_nil _), grayStr_head]
          · intro p hp
            rw [List.mem_singleton.mp hp]
            exact ⟨hwne, hwws⟩
        obtain ⟨pss₂, curPs₂, hinv₂, hacc₂⟩ := ih hws' _ _ _ _ _ hnew
        refine ⟨pss₂, curPs₂, hinv₂, ?_⟩
        rw [hacc₂]
        simp

/-! ## Splitting the chat content into words -/

theorem splitOnSpace_ne_nil (t : Str) : splitOnSpace t ≠ [] := by
  cases t with
  | nil => simp [splitOnSpace]
  | cons c rest =>
    simp only [splitOnSpace]
    split
    · simp
    · split
      · simp
      · simp

theorem splitOnSpace_append_cons (x y : Str) (hx : ' ' ∉ x) :
    splitOnSpace (x ++ ' ' :: y) = x :: splitOnSpace y := by
  induction x with
  | nil =>
    rw [List.nil_append]
    simp [splitOnSpace]
  | cons c x ih =>
    have hc : c ≠ ' ' := fun h => hx (h ▸ List.mem_cons_self _ _)
    rw [List.cons_append]
    simp only [splitOnSpace, if_neg hc,
      ih (fun hm => hx (List.mem_cons_of_mem _ hm))]

theorem splitOnSpace_chars :
    ∀ (t w : Str), w ∈ splitOnSpace t → ∀ c ∈ w, c ∈ t ∧ c ≠ ' ' := by
  intro t
  induction t with
  | nil =>
    intro w hw c hc
    rw [List.mem_singleton.mp hw] at hc
    cases hc
  | cons d t ih =>
    intro w hw c hc
    by_cases hd : d = ' '
    · subst hd
      rw [show splitOnSpace (' ' :: t) = [] :: splitOnSpace t from by
        simp [splitOnSpace]] at hw
      rcases List.mem_cons.mp hw with rfl | hw
      · cases hc
      · obtain ⟨h1, h2⟩ := ih w hw c hc
        exact ⟨List.mem_cons_of_mem _ h1, h2⟩
    · cases hsp : splitOnSpace t with
      | nil =>
        rw [show splitOnSpace (d :: t) = [[d]] from by
          simp [splitOnSpace, hd, hsp]] at hw
        rw [List.mem_singleton.mp hw] at hc
        rcases List.mem_singleton.mp hc with rfl
        exact ⟨List.mem_cons_self _ _, hd⟩
      | cons t₀ ts =>
        rw [show splitOnSpace (d :: t) = (d :: t₀) :: ts from by
          simp [splitOnSpace, hd, hsp]] at hw
        rcases List.mem_cons.mp hw with rfl | hw
        · rcases List.mem_cons.mp hc with rfl | hc
          · exact ⟨List.mem_cons_self _ _, hd⟩
          · obtain ⟨h1, h2⟩ := ih t₀ (hsp ▸ List.mem_cons_self _ _) c hc
            exact ⟨List.mem_cons_of_mem _ h1, h2⟩
        · obtain ⟨h1, h2⟩ :=
            ih w (hsp ▸ List.mem_cons_of_mem _ hw) c hc
          exact ⟨List.mem_cons_of_mem _ h1, h2⟩

theorem not_space_sgr (body : Str) (hb : ∀ c ∈ body, isSgrBody c = true) :
    ' ' ∉ sgr body := by
  intro hm
  rw [sgr] at hm
  rcases List.mem_cons.mp hm with h | hm
  · simp [escChar] at h
  rcases List.mem_cons.mp hm with h | hm
  · simp at h
  rcases List.mem_append.mp hm with hm | hm
  · have := hb ' ' hm
    simp [isSgrBody] at this
  · rcases List.mem_singleton.mp hm with h
    simp at h

theorem not_space_greenBold {name : Str} (h : ' ' ∉ name) :
    ' ' ∉ greenBold name := by
  intro hm
  rw [greenBold] at hm
  rcases List.mem_append.mp hm with hm | hm
  · rcases List.mem_append.mp hm with hm | hm
    · rcases List.mem_append.mp hm with hm | hm
      · rcases List.mem_append.mp hm with hm | hm
        · exact not_space_sgr _ (by decide) hm
        · exact not_space_sgr _ (by decide) hm
      · exact h hm
    · exact not_space_sgr _ (by decide) hm
  · exact not_space_sgr _ (by decide) hm

theorem chat_content_words (name text : Str) (hname : ' ' ∉ name) :
    splitOnSpace (greenBold name ++ S ": " ++ text) =
      (greenBold name ++ [':']) :: splitOnSpace text := by
  have h1 : greenBold name ++ S ": " ++ text =
      (greenBold name ++ [':']) ++ ' ' :: text := by
    have hS : S ": " = [':', ' '] := rfl
    rw [hS]
    simp
  rw [h1]
  refine splitOnSpace_append_cons _ _ ?_
  intro hm
  rcases List.mem_append.mp hm with hm | hm
  · exact not_space_greenBold hname hm
  · rcases List.mem_singleton.mp hm with h
    simp at h

/-! ## Assembling the wrap-branch result -/

theorem wrap_branch_spec (tsb : Str) (W : Int)
    (hsp : ' ' ∉ tsb) (hesc : escFree tsb) (hhd : tsb.head? = some '[')
    (ws : List Str)
    (hws : ∀ w ∈ ws, Closed w ∧ stripAnsi w ≠ [] ∧ wsFree (stripAnsi w))
    (lines₂ : List Str) (cur₂ : Str) (L : List Str)
    (hR : wrapWords tsb W ws (grayStr tsb ++ [' ']) (tsb ++ [' ']) [] =
      (lines₂, cur₂))
    (hL : L = if jsTrim cur₂ ≠ grayStr tsb then lines₂ ++ [cur₂] else lines₂) :
    L = [] ∨
      ((∀ l ∈ L, ((stripAnsi l).length : Int) ≤ W ∨
          (tokens (stripAnsi l)).length = 1) ∧
        ((L.map fun l => tokens (stripAnsi l)).flatten = ws.map stripAnsi ∨
         (L.map fun l => tokens (stripAnsi l)).flatten =
           tsb :: ws.map stripAnsi)) := by
  have hinit : StateInv tsb W (grayStr tsb ++ [' ']) (tsb ++ [' ']) [] [] [] :=
    ⟨stripAnsi_cur0 hesc, closed_cur0 hesc, cur0_head tsb, trivial,
      Or.inl ⟨rfl, rfl, rfl, rfl, rfl⟩⟩
  obtain ⟨pss₂, curPs₂, hinv₂, hacc₂⟩ :=
    wrapWords_inv tsb W hsp hesc hhd ws hws _ _ _ _ _ hinit
  rw [hR] at hinv₂
  simp only [] at hinv₂
  simp only [List.flatten_nil, List.nil_append] at hacc₂
  obtain ⟨hstrip₂, hclosed₂, hhead₂, hlines₂, hcase₂⟩ := hinv₂
  rcases hcase₂ with ⟨hc1, -, hc3, hc4, hc5⟩ | ⟨hcpne, hcpok, hsub⟩
  · refine Or.inl ?_
    rw [hL, if_neg (not_not_intro (by rw [hc1]; exact jsTrim_virgin tsb)), hc4]
  · have hshape : stripAnsi cur₂ = (tsb ++ [' ']) ++ joinSp curPs₂ ∨
        stripAnsi cur₂ = wrapIndent tsb ++ joinSp curPs₂ := by
      rcases hsub with ⟨h, -, -, -⟩ | ⟨h, -⟩
      · exact Or.inl h
      · exact Or.inr h
    have hpush : jsTrim cur₂ ≠ grayStr tsb :=
      active_jsTrim_ne hesc hhd hhead₂ rfl hcpok hcpne hshape
    refine Or.inr ?_
    rw [hL, if_pos hpush]
    have hlinesAll : LinesShape tsb W (lines₂ ++ [cur₂]) (pss₂ ++ [curPs₂])
        true := by
      rcases hsub with ⟨hq, hlenq, hl0, hp0⟩ | ⟨hq, hw⟩
      · rw [hl0, hp0]
        simp only [List.nil_append]
        exact ⟨⟨hcpok, hcpne, Or.inl ⟨rfl, hq, hlenq⟩⟩, trivial⟩
      · exact LinesShape_push hlines₂ ⟨hcpok, hcpne, Or.inr ⟨hq, hw⟩⟩
    have hflat : (pss₂ ++ [curPs₂]).flatten = ws.map stripAnsi := by
      rw [List.flatten_append]
      simp only [List.flatten_cons, List.flatten_nil, List.append_nil]
      exact hacc₂
    refine ⟨LinesShape_lines_ok hlinesAll, ?_⟩
    rcases LinesShape_tokens hsp (tsb_ne_nil_of_head hhd) hlinesAll with h | h
    · exact Or.inl (by rw [h, hflat])
    · exact Or.inr (by rw [h, hflat])

/-! ## Claim about wrapped lines (width bound and reconstruction) -/

/-- Claim C6, counterexample: wrapping the chat record `a: bb cc` (with
timestamp `00:00:00`, hanging indent of 12 spaces) at width 13 produces
3 lines; the second line's unstyled length is 14 > 13, yet it consists
of the short word `bb` (length 2), not a single word longer than the
width — so the claimed exception clause does not cover it. -/
theorem wrap_width_bound_counterexample :
    1 < (formatMessageToLines sampleRec 13).length ∧
      ¬ (∀ l ∈ formatMessageToLines sampleRec 13,
          ((stripAnsi l).length : Int) ≤ 13 ∨ singleLongWord 13 l = true) := by
  decide

/-- Claim C6, amended: for a chat record with tidy fields (no whitespace
or escape characters in the name and timestamp, no escape characters or
consecutive/leading/trailing spaces in the text) wrapped into more than
one line, every produced line's unstyled length is at most `maxWidth`
except lines that hold a single word (the hanging indent plus one word
can exceed the width even when the word itself is short); and
concatenating the unstyled words of all lines in order reconstructs the
`name: text` words, preceded by the bracketed timestamp token whenever
the first line kept it. -/
theorem wrap_lines_amended :
    ∀ (name text ts : Str) (W : Int),
      wsFree name → escFree name → escFree text →
      (∀ w ∈ splitOnSpace text, w ≠ [] ∧ wsFree w) →
      wsFree ts → escFree ts →
      1 < (formatMessageToLines ⟨.chat, name, text, ts, 0⟩ W).length →
      (∀ l ∈ formatMessageToLines ⟨.chat, name, text, ts, 0⟩ W,
          ((stripAnsi l).length : Int) ≤ W ∨
            (tokens (stripAnsi l)).length = 1)
      ∧ (((formatMessageToLines ⟨.chat, name, text, ts, 0⟩ W).map
            (fun l => tokens (stripAnsi l))).flatten =
            ('[' :: ts ++ [']']) :: (name ++ [':']) :: splitOnSpace text ∨
          ((formatMessageToLines ⟨.chat, name, text, ts, 0⟩ W).map
            (fun l => tokens (stripAnsi l))).flatten =
            (name ++ [':']) :: splitOnSpace text) := by
  intro name text ts W hnws hnesc htesc htw htsws htsesc hk
  have hbrack : bracketTs ⟨.chat, name, text, ts, 0⟩ = '[' :: ts ++ [']'] := rfl
  have hcont : renderContent ⟨.chat, name, text, ts, 0⟩ =
      greenBold name ++ S ": " ++ text := rfl
  have htsb_sp : ' ' ∉ ('[' :: ts ++ [']'] : Str) := by
    intro hm
    rcases List.mem_cons.mp hm with h | hm
    · exact absurd h (by decide)
    rcases List.mem_append.mp hm with hm | hm
    · exact wsFree_not_space htsws hm
    · exact absurd (List.mem_singleton.mp hm) (by decide)
  have htsb_esc : escFree ('[' :: ts ++ [']'] : Str) := by
    intro hm
    rcases List.mem_cons.mp hm with h | hm
    · exact absurd h (by decide)
    rcases List.mem_append.mp hm with hm | hm
    · exact htsesc hm
    · exact absurd (List.mem_singleton.mp hm) (by decide)
  have htsb_hd : ('[' :: ts ++ [']'] : Str).head? = some '[' := rfl
  have hwords_eq : splitOnSpace (greenBold name ++ S ": " ++ text) =
      (greenBold name ++ [':']) :: splitOnSpace text :=
    chat_content_words name text (wsFree_not_space hnws)
  have hw0_strip : stripAnsi (greenBold name ++ [':']) = name ++ [':'] := by
    rw [stripAnsi_greenBold_append hnesc]
    rfl
  have hwordsOK : ∀ w ∈ splitOnSpace (greenBold name ++ S ": " ++ text),
      Closed w ∧ stripAnsi w ≠ [] ∧ wsFree (stripAnsi w) := by
    rw [hwords_eq]
    intro w hw
    rcases List.mem_cons.mp hw with rfl | hw
    · refine ⟨closed_append (closed_greenBold hnesc)
        (closed_escFree (fun hm =>
          absurd (List.mem_singleton.mp hm) (by decide))), ?_, ?_⟩
      · rw [hw0_strip]
        simp
      · rw [hw0_strip]
        intro c hc
        rcases List.mem_append.mp hc with hc | hc
        · exact hnws c hc
        · rcases List.mem_singleton.mp hc with rfl
          decide
    · have hesc_w : escFree w := fun hm =>
        htesc ((splitOnSpace_chars text w hw escChar hm).1)
      have hw2 := htw w hw
      refine ⟨closed_escFree hesc_w, ?_, ?_⟩
      · rw [stripAnsi_escFree hesc_w]
        exact hw2.1
      · rw [stripAnsi_escFree hesc_w]
        exact hw2.2
  have hmap : (splitOnSpace (greenBold name ++ S ": " ++ text)).map stripAnsi =
      (name ++ [':']) :: splitOnSpace text := by
    rw [hwords_eq, List.map_cons, hw0_strip]
    congr 1
    have hid : ∀ w ∈ splitOnSpace text, stripAnsi w = w := fun w hw =>
      stripAnsi_escFree
        (fun hm => htesc ((splitOnSpace_chars text w hw escChar hm).1))
    calc (splitOnSpace text).map stripAnsi
        = (splitOnSpace text).map id := List.map_congr_left hid
      _ = splitOnSpace text := List.map_id _
  simp only [formatMessageToLines, hbrack, hcont] at hk ⊢
  by_cases hfast : ((stripAnsi (grayStr ('[' :: ts ++ [']']) ++
      ' ' :: (greenBold name ++ S ": " ++ text))).length : Int) ≤ W
  · rw [if_pos hfast] at hk
    simp at hk
  · rw [if_neg hfast] at hk ⊢
    rcases wrap_branch_spec ('[' :: ts ++ [']']) W htsb_sp htsb_esc htsb_hd
        (splitOnSpace (greenBold name ++ S ": " ++ text)) hwordsOK
        (wrapWords ('[' :: ts ++ [']']) W
          (splitOnSpace (greenBold name ++ S ": " ++ text))
          (grayStr ('[' :: ts ++ [']']) ++ [' '])
          (('[' :: ts ++ [']']) ++ [' ']) []).1
        (wrapWords ('[' :: ts ++ [']']) W
          (splitOnSpace (greenBold name ++ S ": " ++ text))
          (grayStr ('[' :: ts ++ [']']) ++ [' '])
          (('[' :: ts ++ [']']) ++ [' ']) []).2
        _ rfl rfl with hnil | ⟨hA, hB⟩
    · rw [hnil, if_pos rfl] at hk
      simp at hk
    · have hLne : (if jsTrim (wrapWords ('[' :: ts ++ [']']) W
          (splitOnSpace (greenBold name ++ S ": " ++ text))
          (grayStr ('[' :: ts ++ [']']) ++ [' '])
          (('[' :: ts ++ [']']) ++ [' ']) []).2 ≠ grayStr ('[' :: ts ++ [']'])
        then (wrapWords ('[' :: ts ++ [']']) W
          (splitOnSpace (greenBold name ++ S ": " ++ text))
          (grayStr ('[' :: ts ++ [']']) ++ [' '])
          (('[' :: ts ++ [']']) ++ [' ']) []).1 ++
          [(wrapWords ('[' :: ts ++ [']']) W
            (splitOnSpace (greenBold name ++ S ": " ++ text))
            (grayStr ('[' :: ts ++ [']']) ++ [' '])
            (('[' :: ts ++ [']']) ++ [' ']) []).2]
        else (wrapWords ('[' :: ts ++ [']']) W
          (splitOnSpace (greenBold name ++ S ": " ++ text))
          (grayStr ('[' :: ts ++ [']']) ++ [' '])
          (('[' :: ts ++ [']']) ++ [' ']) []).1) ≠ [] := by
        intro h0
        rw [h0] at hB
        rw [hmap] at hB
        rcases hB with h | h <;> cases h
      rw [if_neg hLne] at hk ⊢
      rw [hmap] at hB
      exact ⟨hA, hB.symm⟩

/-- Claim C6 (amended), witness: the record `a: bb cc` at width 13 wraps
into three well-shaped lines whose unstyled words reconstruct the
content with the timestamp token. -/
theorem wrap_lines_amended_witness :
    (1 < (formatMessageToLines sampleRec 13).length) ∧
      ((∀ l ∈ formatMessageToLines sampleRec 13,
          ((stripAnsi l).length : Int) ≤ 13 ∨
            (tokens (stripAnsi l)).length = 1)
        ∧ (((formatMessageToLines sampleRec 13).map
              (fun l => tokens (stripAnsi l))).flatten =
              ('[' :: S "00:00:00" ++ [']']) :: (S "a" ++ [':']) ::
                splitOnSpace (S "bb cc") ∨
            ((formatMessageToLines sampleRec 13).map
              (fun l => tokens (stripAnsi l))).flatten =
              (S "a" ++ [':']) :: splitOnSpace (S "bb cc"))) :=
  ⟨by decide,
   wrap_lines_amended (S "a") (S "bb cc") (S "00:00:00") 13
     (by decide) (by decide) (by decide) (by decide) (by decide) (by decide)
     (by decide)⟩

end BizChat
